import Mathlib

/-!
Verification of the mesh-diffing core of the repository: `MeshDiffer`
(src/game/src/graphics/util/mesh_diff.rs) and the dense-buffer adapter
`BufferVec` (src/game/src/graphics/util/buffer_vec.rs).

Modelling notes, keyed to the source:

* `Entry<K, P>` is the sortable unit `(key, primitive, ordinal)`.  In the
  source the `primitive` field has type `OrdHack<P>` whose `NegInf`/`PosInf`
  variants are only ever constructed by `key_range_hack` to bound a BTree
  range query; every entry stored in a collection is `OrdHack::Real`.  We
  embed entries with a plain `primitive : P` field and model a range query
  `tree.range(key_range_hack(key))` as "the entries whose key equals `key`,
  in sorted order", which is exactly the set the sentinel bounds select.
* `BTreeMap<Entry, usize>` is modelled as an association list sorted
  strictly by entry (`treeInsert`, `treeRemove`, `lookupT`), and
  `BTreeSet<Entry>` / `BTreeSet<K>` as strictly sorted lists (`setInsert`).
* The `Pool`/`PoolLogic` scratch-vector pool (src/game/src/util/pool.rs)
  always hands out a recycled (cleared) or freshly created vector, so the
  pooled vectors are modelled as fresh empty lists; the spec states the pool
  is a throughput optimization that must not be relied on for correctness.
* `Vec::sort` is a stable sort; it is modelled by `List.insertionSort`
  (also stable).  `sort_unstable_by_key` on the write list is likewise
  modelled by a stable insertion sort on the destination index.
* Rust panics (`unwrap`, slice indexing) cannot occur on states reachable
  from `MeshDiffer::new` (proved below via the `Valid` invariant); the
  embedding totalizes them with `Option.getD 0` / `List.set` out-of-range
  no-ops at the corresponding program points.
-/

set_option maxHeartbeats 1000000

section MeshDiff

variable {K P : Type} [LinearOrder K] [LinearOrder P]

/-- The sortable unit of the differ: `struct Entry<K, P> { key, primitive, ordinal }`. -/
structure Entry (K P : Type) where
  key : K
  primitive : P
  ordinal : Nat
deriving DecidableEq, Repr

/-- Lexicographic comparison on `(key, primitive, ordinal)`: the order derived
by `#[derive(Ord)]` on the source `Entry` struct (with `OrdHack::Real`
primitives comparing exactly like the underlying `P`). -/
def Entry.le (a b : Entry K P) : Prop :=
  a.key < b.key ∨
    (a.key = b.key ∧
      (a.primitive < b.primitive ∨ (a.primitive = b.primitive ∧ a.ordinal ≤ b.ordinal)))

instance : LinearOrder (Entry K P) where
  le := Entry.le
  le_refl a := Or.inr ⟨rfl, Or.inr ⟨rfl, le_refl _⟩⟩
  le_trans a b c hab hbc := by
    rcases hab with h1 | ⟨e1, h1⟩
    · rcases hbc with h2 | ⟨e2, h2⟩
      · exact Or.inl (lt_trans h1 h2)
      · exact Or.inl (e2 ▸ h1)
    · rcases hbc with h2 | ⟨e2, h2⟩
      · exact Or.inl (e1 ▸ h2)
      · refine Or.inr ⟨e1.trans e2, ?_⟩
        rcases h1 with p1 | ⟨q1, p1⟩
        · rcases h2 with p2 | ⟨q2, p2⟩
          · exact Or.inl (lt_trans p1 p2)
          · exact Or.inl (q2 ▸ p1)
        · rcases h2 with p2 | ⟨q2, p2⟩
          · exact Or.inl (q1 ▸ p2)
          · exact Or.inr ⟨q1.trans q2, le_trans p1 p2⟩
  le_antisymm a b hab hba := by
    obtain ⟨ak, ap, ao⟩ := a
    obtain ⟨bk, bp, bo⟩ := b
    rcases hab with h1 | ⟨e1, h1⟩
    · rcases hba with h2 | ⟨e2, h2⟩
      · exact absurd h2 (lt_asymm h1)
      · exact absurd h1 (e2 ▸ lt_irrefl _)
    · rcases hba with h2 | ⟨e2, h2⟩
      · exact absurd h2 (e1 ▸ lt_irrefl _)
      · cases e1
        rcases h1 with p1 | ⟨q1, p1⟩
        · rcases h2 with p2 | ⟨q2, p2⟩
          · exact absurd p2 (lt_asymm p1)
          · exact absurd p1 (q2 ▸ lt_irrefl _)
        · rcases h2 with p2 | ⟨q2, p2⟩
          · exact absurd p2 (q1 ▸ lt_irrefl _)
          · cases q1
            cases Nat.le_antisymm p1 p2
            rfl
  le_total a b := by
    rcases lt_trichotomy a.key b.key with h | h | h
    · exact Or.inl (Or.inl h)
    · rcases lt_trichotomy a.primitive b.primitive with h' | h' | h'
      · exact Or.inl (Or.inr ⟨h, Or.inl h'⟩)
      · rcases Nat.le_total a.ordinal b.ordinal with h'' | h''
        · exact Or.inl (Or.inr ⟨h, Or.inr ⟨h', h''⟩⟩)
        · exact Or.inr (Or.inr ⟨h.symm, Or.inr ⟨h'.symm, h''⟩⟩)
      · exact Or.inr (Or.inr ⟨h.symm, Or.inl h'⟩)
    · exact Or.inr (Or.inl h)
  decidableLE a b :=
    inferInstanceAs (Decidable (a.key < b.key ∨
      (a.key = b.key ∧
        (a.primitive < b.primitive ∨ (a.primitive = b.primitive ∧ a.ordinal ≤ b.ordinal)))))

theorem Entry.le_iff {a b : Entry K P} :
    a ≤ b ↔ (a.key < b.key ∨
      (a.key = b.key ∧
        (a.primitive < b.primitive ∨ (a.primitive = b.primitive ∧ a.ordinal ≤ b.ordinal)))) :=
  Iff.rfl

theorem Entry.lt_iff {a b : Entry K P} :
    a < b ↔ (a.key < b.key ∨
      (a.key = b.key ∧
        (a.primitive < b.primitive ∨ (a.primitive = b.primitive ∧ a.ordinal < b.ordinal)))) := by
  rw [lt_iff_le_not_le]
  constructor
  · rintro ⟨hab, hba⟩
    rcases hab with h | ⟨e, h⟩
    · exact Or.inl h
    · refine Or.inr ⟨e, ?_⟩
      rcases h with h | ⟨e', h⟩
      · exact Or.inl h
      · refine Or.inr ⟨e', lt_of_le_of_ne h fun ho => ?_⟩
        exact hba (Or.inr ⟨e.symm, Or.inr ⟨e'.symm, ho ▸ le_refl _⟩⟩)
  · rintro (h | ⟨e, h | ⟨e', h⟩⟩)
    · refine ⟨Or.inl h, fun hba => ?_⟩
      rcases hba with h2 | ⟨e2, _⟩
      · exact lt_asymm h h2
      · exact absurd h (e2 ▸ lt_irrefl _)
    · refine ⟨Or.inr ⟨e, Or.inl h⟩, fun hba => ?_⟩
      rcases hba with h2 | ⟨e2, h2 | ⟨e2', _⟩⟩
      · exact absurd h2 (e ▸ lt_irrefl _)
      · exact lt_asymm h h2
      · exact absurd h (e2' ▸ lt_irrefl _)
    · refine ⟨Or.inr ⟨e, Or.inr ⟨e', le_of_lt h⟩⟩, fun hba => ?_⟩
      rcases hba with h2 | ⟨e2, h2 | ⟨e2', h2⟩⟩
      · exact absurd h2 (e ▸ lt_irrefl _)
      · exact absurd h2 (e' ▸ lt_irrefl _)
      · exact absurd h (Nat.not_lt.mpr h2)

/-- Insertion into a strictly sorted list, modelling `BTreeSet::insert`
(no-op when the element is already present). -/
def setInsert {α : Type} [LinearOrder α] (a : α) : List α → List α
  | [] => [a]
  | b :: l => if a < b then a :: b :: l else if a = b then b :: l else b :: setInsert a l

/-- Insertion into a strictly sorted association list, modelling
`BTreeMap::insert` (the stored value is replaced when the key is present). -/
def treeInsert (e : Entry K P) (i : Nat) :
    List (Entry K P × Nat) → List (Entry K P × Nat)
  | [] => [(e, i)]
  | (e', i') :: l =>
    if e < e' then (e, i) :: (e', i') :: l
    else if e = e' then (e, i) :: l
    else (e', i') :: treeInsert e i l

/-- Removal from an association list, modelling `BTreeMap::remove`: returns
the removed value (if any) together with the remaining list. -/
def treeRemove (e : Entry K P) :
    List (Entry K P × Nat) → Option Nat × List (Entry K P × Nat)
  | [] => (none, [])
  | (e', i') :: l =>
    if e = e' then (some i', l)
    else
      let r := treeRemove e l
      (r.1, (e', i') :: r.2)

/-- Association-list lookup, modelling `BTreeMap` indexing. -/
def lookupT (t : List (Entry K P × Nat)) (e : Entry K P) : Option Nat :=
  match t with
  | [] => none
  | (e', i') :: l => if e = e' then some i' else lookupT l e

/-- The entries of the baseline tree whose key is `k`, in sorted order:
`tree.range(key_range_hack(key))` in the source (the `NegInf`/`PosInf`
sentinels bound exactly the entries with this key). -/
def rangeTree (k : K) (t : List (Entry K P × Nat)) : List (Entry K P) :=
  (t.map Prod.fst).filter (fun e => decide (e.key = k))

/-- The staged-overlay entries whose key is `k`, in sorted order:
`alter_entries.range(key_range_hack(key))` in the source. -/
def rangeSet (k : K) (s : List (Entry K P)) : List (Entry K P) :=
  s.filter (fun e => decide (e.key = k))

/-- The sorted-merge walk of `MeshDiffer::commit` (the `loop` over the
peekable `before_iter`/`after_iter` for one key): returns `(added, removed)`,
the entries pushed to `added` (only in the after/overlay range) and to
`removed` (only in the before/baseline range). -/
def mergeWalk : List (Entry K P) → List (Entry K P) → List (Entry K P) × List (Entry K P)
  | [], [] => ([], [])
  | [], a :: as =>
    let r := mergeWalk [] as
    (a :: r.1, r.2)
  | b :: bs, [] =>
    let r := mergeWalk bs []
    (r.1, b :: r.2)
  | b :: bs, a :: as =>
    if b = a then mergeWalk bs as
    else if a < b then
      -- `Ord::cmp(before, after) == Greater`: push `after` onto `added`
      let r := mergeWalk (b :: bs) as
      (a :: r.1, r.2)
    else
      -- `Ord::cmp(before, after) == Less`: push `before` onto `removed`
      let r := mergeWalk bs (a :: as)
      (r.1, b :: r.2)
termination_by b a => b.length + a.length

/-- Worker of `assign_ordinals`: `curr` carries the `(curr_key, curr_prim)`
state and `o` the current ordinal counter. -/
def assignGo : Option (K × P) → Nat → List (Entry K P) → List (Entry K P)
  | _, _, [] => []
  | curr, o, e :: rest =>
    if curr = some (e.key, e.primitive) then
      { e with ordinal := o + 1 } :: assignGo (some (e.key, e.primitive)) (o + 1) rest
    else
      { e with ordinal := 0 } :: assignGo (some (e.key, e.primitive)) 0 rest

/-- `assign_ordinals`: number consecutive equal `(key, primitive)` runs of a
sorted entry slice starting at 0. -/
def assignOrdinals (l : List (Entry K P)) : List (Entry K P) :=
  assignGo none 0 l

/-- The canonical entry list `stage` builds for one `(key, primitives)` batch:
map each primitive to an ordinal-0 entry, sort (stably), assign ordinals. -/
def stageEntries (key : K) (primitives : List P) : List (Entry K P) :=
  assignOrdinals (List.insertionSort (· ≤ ·)
    (primitives.map (fun primitive => Entry.mk key primitive 0)))

/-- Comparison by destination index used to sort the collected writes
(`writes.sort_unstable_by_key(|&(_, index)| index)`). -/
def writeLE (a b : P × Nat) : Prop := a.2 ≤ b.2

instance : DecidableRel (writeLE (P := P)) := fun a b => Nat.decLe a.2 b.2

instance : IsTotal (P × Nat) (writeLE (P := P)) := ⟨fun a b => Nat.le_total a.2 b.2⟩

instance : IsTrans (P × Nat) (writeLE (P := P)) := ⟨fun _ _ _ => Nat.le_trans⟩

/-- Sort the collected writes by destination slot ascending.  The source uses
`sort_unstable_by_key`; on the lists produced by `commit` we model it with a
stable insertion sort. -/
def sortWrites (w : List (P × Nat)) : List (P × Nat) :=
  List.insertionSort writeLE w

/-- The patch produced by `commit`: `struct MeshPatch<P>`. -/
structure MeshPatch (P : Type) where
  new_len : Nat
  writes_data : List P
  writes_indices : List Nat
deriving DecidableEq, Repr

/-- The differ state: `struct MeshDiffer<K, P>`.  The scratch-vector pool
field is a performance artifact with no observable state and is omitted. -/
structure MeshDiffer (K P : Type) where
  tree : List (Entry K P × Nat)
  array : List (Entry K P)
  alter_entries : List (Entry K P)
  alter_keys : List K
deriving DecidableEq, Repr

/-- `MeshDiffer::new`. -/
def meshNew : MeshDiffer K P := ⟨[], [], [], []⟩

/-- `MeshDiffer::stage(key, primitives)`: if the key was already touched,
drop its old overlay range; always record the key as touched; then insert the
freshly built (sorted, ordinal-assigned) entries into the overlay. -/
def MeshDiffer.stage (s : MeshDiffer K P) (key : K) (primitives : List P) :
    MeshDiffer K P :=
  let s1 :=
    if key ∈ s.alter_keys then
      { s with alter_entries := s.alter_entries.filter (fun e => decide (e.key ≠ key)) }
    else
      { s with alter_keys := setInsert key s.alter_keys }
  (stageEntries key primitives).foldl
    (fun t e => { t with alter_entries := setInsert e t.alter_entries }) s1

/-- The mutable locals of `MeshDiffer::commit` while it edits the baseline. -/
structure CommitState (K P : Type) where
  tree : List (Entry K P × Nat)
  array : List (Entry K P)
  writes : List (P × Nat)

/-- One iteration of the paired add/remove loop of `commit`
(`for (add, remove) in zip(added, removed)`): reuse the removed entry's slot.
The `unwrap` on `tree.remove` is totalized with `getD 0`; it cannot fail on
valid states (proved below). -/
def zipStep (st : CommitState K P) (pr : Entry K P × Entry K P) : CommitState K P :=
  let r := treeRemove pr.2 st.tree
  let idx := r.1.getD 0
  { tree := treeInsert pr.1 idx r.2
    array := st.array.set idx pr.1
    writes := st.writes ++ [(pr.1.primitive, idx)] }

/-- One iteration of the surplus-add loop of `commit`
(`for add in added.iter().skip(removed.len())`): append at the end. -/
def appendStep (st : CommitState K P) (e : Entry K P) : CommitState K P :=
  { tree := treeInsert e st.array.length st.tree
    array := st.array ++ [e]
    writes := st.writes ++ [(e.primitive, st.array.length)] }

/-- One iteration of the surplus-remove (swap-remove) loop of `commit`
(`for remove in removed.iter().skip(added.len())`): free the entry's slot; if
it was the last slot just shrink, otherwise relocate the last live entry into
the freed slot and record a write for it.  The `pop().unwrap()` cannot see an
empty array on valid states; the `none` branch is dead code matching that
panic point, and the source's `assert_eq` on the relocated entry's old slot
is a check with no state effect. -/
def removeStep (st : CommitState K P) (e : Entry K P) : CommitState K P :=
  let r := treeRemove e st.tree
  let idx := r.1.getD 0
  if idx + 1 = st.array.length then
    { tree := r.2, array := st.array.dropLast, writes := st.writes }
  else
    match st.array.getLast? with
    | none => { tree := r.2, array := [], writes := st.writes }
    | some relocate =>
      let r2 := treeRemove relocate r.2
      { tree := treeInsert relocate idx r2.2
        array := st.array.dropLast.set idx relocate
        writes := st.writes ++ [(relocate.primitive, idx)] }

/-- The per-key diff collection of `commit` (`for key in alter_keys`): walk
each touched key's baseline range against its overlay range, accumulating the
`added` and `removed` vectors in key order. -/
def collectDiff (s : MeshDiffer K P) : List (Entry K P) × List (Entry K P) :=
  s.alter_keys.foldl
    (fun acc k =>
      let d := mergeWalk (rangeTree k s.tree) (rangeSet k s.alter_entries)
      (acc.1 ++ d.1, acc.2 ++ d.2))
    ([], [])

/-- `MeshDiffer::commit`: collect the per-key diffs, reuse slots for paired
add/remove, append surplus adds, swap-remove surplus removes, then sort the
writes by destination index and split them into the patch's parallel
`writes_data` / `writes_indices` vectors.  Returns the patch together with
the updated differ (the overlay and touched-key set are left as-is). -/
def MeshDiffer.commit (s : MeshDiffer K P) : MeshPatch P × MeshDiffer K P :=
  let d := collectDiff s
  let added := d.1
  let removed := d.2
  let post_edit_len := s.array.length + added.length - removed.length
  let st0 : CommitState K P := ⟨s.tree, s.array, []⟩
  let st1 := (added.zip removed).foldl zipStep st0
  let st2 :=
    if removed.length < added.length then
      (added.drop removed.length).foldl appendStep st1
    else
      (removed.drop added.length).foldl removeStep st1
  let ws := sortWrites st2.writes
  (⟨post_edit_len, ws.map Prod.fst, ws.map Prod.snd⟩,
   { s with tree := st2.tree, array := st2.array })

/-- One external call to the differ. -/
inductive MeshOp (K P : Type) where
  | stage (key : K) (primitives : List P)
  | commit

/-- Apply one call, discarding the returned patch. -/
def MeshDiffer.step (s : MeshDiffer K P) : MeshOp K P → MeshDiffer K P
  | .stage key primitives => s.stage key primitives
  | .commit => s.commit.2

/-- Run a sequence of calls from a starting state. -/
def runOps (s : MeshDiffer K P) (ops : List (MeshOp K P)) : MeshDiffer K P :=
  ops.foldl MeshDiffer.step s

end MeshDiff

section ContiguousRuns

/-- Location of contiguous writes in a `MeshPatch`: `struct Contiguous`. -/
structure Contiguous where
  src_start : Nat
  dst_start : Nat
  len : Nat
deriving DecidableEq, Repr

/-- The inner `while` of `IterContiguous::next`: starting from candidate run
length `k`, extend while `indices[curr + part_len] == indices[curr] + part_len`
stays in bounds and true. -/
def partLen (indices : List Nat) (curr : Nat) (k : Nat) : Nat :=
  if curr + k < indices.length ∧ indices.getD (curr + k) 0 = indices.getD curr 0 + k then
    partLen indices curr (k + 1)
  else k
termination_by indices.length - (curr + k)
decreasing_by
  rename_i h
  omega

theorem le_partLen (indices : List Nat) (curr : Nat) : ∀ k, k ≤ partLen indices curr k := by
  have H : ∀ m k, indices.length - (curr + k) = m → k ≤ partLen indices curr k := by
    intro m
    induction m using Nat.strong_induction_on with
    | _ m ih =>
      intro k hk
      rw [partLen]
      split
      · rename_i hc
        exact le_trans (Nat.le_succ k) (ih (indices.length - (curr + (k + 1))) (by omega) (k + 1) rfl)
      · exact le_refl k
  exact fun k => H (indices.length - (curr + k)) k rfl

theorem partLen_pos (indices : List Nat) (curr : Nat) (h : curr < indices.length) :
    1 ≤ partLen indices curr 0 := by
  rw [partLen]
  split
  · exact le_partLen indices curr (0 + 1)
  · rename_i hc
    exact absurd ⟨by omega, by simp⟩ hc

/-- Worker of `MeshPatch::iter_contiguous`: repeatedly take the maximal
contiguous span starting at `curr`; the iterator stops (returns `None`) when
the computed span is empty, i.e. when `curr` has reached the end. -/
def iterContiguousGo (indices : List Nat) (curr : Nat) : List Contiguous :=
  if h : curr < indices.length then
    let pl := partLen indices curr 0
    ⟨curr, indices.getD curr 0, pl⟩ :: iterContiguousGo indices (curr + pl)
  else []
termination_by indices.length - curr
decreasing_by
  have := partLen_pos indices curr h
  omega

/-- `MeshPatch::iter_contiguous`, as the list of all yielded items. -/
def MeshPatch.iterContiguous {P : Type} (p : MeshPatch P) : List Contiguous :=
  iterContiguousGo p.writes_indices 0

end ContiguousRuns

section BufferVecModel

/-- `BUFFER_VEC_DEFAULT_CAPACITY`. -/
def BUFFER_VEC_DEFAULT_CAPACITY : Nat := 512

/-- The grow loop of `BufferVec::set_len`
(`while new_capacity < new_len { new_capacity *= 2 }`).  The `0 < c` guard
makes termination of the Rust loop explicit; the capacity of a `BufferVec`
is always at least the default 512, so the guard never bites. -/
def growCap (c n : Nat) : Nat :=
  if 0 < c ∧ c < n then growCap (2 * c) n else c
termination_by n - c
decreasing_by
  rename_i h
  omega

/-- The shrink arm of `BufferVec::set_len`
(`new_capacity /= 4; if new_capacity < DEFAULT { new_capacity = DEFAULT }`). -/
def shrinkCap (c : Nat) : Nat :=
  let c4 := c / 4
  if c4 < BUFFER_VEC_DEFAULT_CAPACITY then BUFFER_VEC_DEFAULT_CAPACITY else c4

/-- Observable state of a `BufferVec<T>` (lengths and capacities counted in
elements).  `asserts_ok` records whether every `assert!(self.len <=
new_capacity)` inside `realloc` has held so far; `reallocs` records each
reallocation as `(new_capacity, copied_prefix_len)` — `realloc` issues one
`copy_buffer_to_buffer` covering the live prefix `[0, old_len)`. -/
structure BufferVecSt where
  len : Nat
  capacity : Nat
  asserts_ok : Bool
  reallocs : List (Nat × Nat)
deriving DecidableEq, Repr

/-- `BufferVec::new`: empty, at the default capacity. -/
def bufferVecNew : BufferVecSt :=
  ⟨0, BUFFER_VEC_DEFAULT_CAPACITY, true, []⟩

/-- `BufferVec::set_len(new_len)`: pick the new capacity (grow by doubling
while too small; divide by 4 once, clamped to the default, when more than 4
times too large), `realloc` if it changed, then store the new length. -/
def setLenModel (st : BufferVecSt) (new_len : Nat) : BufferVecSt :=
  let nc :=
    if st.capacity < new_len then growCap st.capacity new_len
    else if new_len * 4 < st.capacity then shrinkCap st.capacity
    else st.capacity
  if nc ≠ st.capacity then
    { len := new_len
      capacity := nc
      asserts_ok := st.asserts_ok && decide (st.len ≤ nc)
      reallocs := st.reallocs ++ [(nc, st.len)] }
  else { st with len := new_len }

/-- Run a sequence of `set_len` calls on a fresh `BufferVec`. -/
def runSetLens (l : List Nat) : BufferVecSt :=
  l.foldl setLenModel bufferVecNew

/-- Modelled from the spec: the shrink target the spec describes, "max(new_len
rounded up by the doubling rule, the fixed minimum default capacity of 512
elements)" — i.e. the least repeated doubling of the default capacity that
reaches `new_len`, but never below the default.  (The code under src/ instead
divides the capacity by 4 exactly once; this definition exists only to compare
the spec's words against that code.) -/
def specShrinkTarget (new_len : Nat) : Nat :=
  max (growCap BUFFER_VEC_DEFAULT_CAPACITY new_len) BUFFER_VEC_DEFAULT_CAPACITY

/-- The copy requests `BufferVec::apply_patch` records for the write list:
none when `writes_data` is empty (the cheap path returns before uploading),
otherwise exactly one per contiguous run yielded by `iter_contiguous`
(offsets in elements; the source scales by `size_of::<T>()`). -/
def applyPatchCopies {P : Type} (p : MeshPatch P) : List Contiguous :=
  if p.writes_data.isEmpty then [] else p.iterContiguous

end BufferVecModel

section CollectionLemmas

variable {K P : Type} [LinearOrder K] [LinearOrder P]

/-- Membership of an entry among the keys of the baseline tree. -/
def memT (t : List (Entry K P × Nat)) (e : Entry K P) : Prop := ∃ i, (e, i) ∈ t

/-- The tree's entries are strictly sorted (the `BTreeMap` shape invariant). -/
def SortedT (t : List (Entry K P × Nat)) : Prop := (t.map Prod.fst).Sorted (· < ·)

theorem mem_setInsert {α : Type} [LinearOrder α] (a b : α) (l : List α) :
    b ∈ setInsert a l ↔ b = a ∨ b ∈ l := by
  induction l with
  | nil => simp [setInsert]
  | cons c l ih =>
    simp only [setInsert]
    split
    · simp
    · split
      · rename_i h1 h2
        subst h2
        simp only [List.mem_cons]
        constructor
        · intro h
          exact Or.inr h
        · rintro (rfl | h)
          · exact Or.inl rfl
          · exact h
      · simp only [List.mem_cons, ih]
        tauto

theorem sorted_setInsert {α : Type} [LinearOrder α] (a : α) (l : List α)
    (hl : l.Sorted (· < ·)) : (setInsert a l).Sorted (· < ·) := by
  induction l with
  | nil => simp [setInsert]
  | cons c l ih =>
    rw [List.sorted_cons] at hl
    simp only [setInsert]
    split
    · rename_i h1
      rw [List.sorted_cons]
      refine ⟨?_, List.sorted_cons.mpr hl⟩
      intro b hb
      rcases List.mem_cons.mp hb with rfl | hb
      · exact h1
      · exact lt_trans h1 (hl.1 b hb)
    · split
      · exact List.sorted_cons.mpr hl
      · rename_i h1 h2
        rw [List.sorted_cons]
        refine ⟨?_, ih hl.2⟩
        intro b hb
        rcases (mem_setInsert a b l).mp hb with rfl | hb
        · rcases lt_trichotomy b c with h | h | h
          · exact absurd h h1
          · exact absurd h h2
          · exact h
        · exact hl.1 b hb

theorem lookupT_eq_none {t : List (Entry K P × Nat)} {e : Entry K P} :
    lookupT t e = none ↔ ¬ memT t e := by
  induction t with
  | nil => simp [lookupT, memT]
  | cons p l ih =>
    obtain ⟨e', i'⟩ := p
    simp only [lookupT]
    split
    · rename_i h
      subst h
      simp only [memT]
      constructor
      · intro h
        exact absurd h (Option.some_ne_none i')
      · intro h
        exact absurd ⟨i', List.mem_cons_self _ _⟩ h
    · rename_i h
      rw [ih]
      simp only [memT, List.mem_cons]
      constructor
      · intro hn hm
        obtain ⟨i, hi | hi⟩ := hm
        · exact h (congrArg Prod.fst hi)
        · exact hn ⟨i, hi⟩
      · intro hn ⟨i, hi⟩
        exact hn ⟨i, Or.inr hi⟩

theorem lookupT_eq_some {t : List (Entry K P × Nat)} {e : Entry K P} {i : Nat}
    (hnd : (t.map Prod.fst).Nodup) : lookupT t e = some i ↔ (e, i) ∈ t := by
  induction t with
  | nil => simp [lookupT]
  | cons p l ih =>
    obtain ⟨e', i'⟩ := p
    simp only [List.map_cons, List.nodup_cons] at hnd
    simp only [lookupT, List.mem_cons]
    split
    · rename_i h
      subst h
      constructor
      · rintro h
        exact Or.inl (by simpa using h.symm)
      · rintro (h | h)
        · cases h
          rfl
        · exact absurd (List.mem_map_of_mem Prod.fst h) hnd.1
    · rename_i h
      rw [ih hnd.2]
      constructor
      · exact Or.inr
      · rintro (hh | hh)
        · cases hh
          exact absurd rfl h
        · exact hh

theorem treeRemove_fst (e : Entry K P) (t : List (Entry K P × Nat)) :
    (treeRemove e t).1 = lookupT t e := by
  induction t with
  | nil => rfl
  | cons p l ih =>
    obtain ⟨e', i'⟩ := p
    simp only [treeRemove, lookupT]
    split
    · rfl
    · exact ih

theorem treeRemove_sublist (e : Entry K P) (t : List (Entry K P × Nat)) :
    (treeRemove e t).2.Sublist t := by
  induction t with
  | nil => simp [treeRemove]
  | cons p l ih =>
    obtain ⟨e', i'⟩ := p
    simp only [treeRemove]
    split
    · exact List.sublist_cons_self _ _
    · exact List.Sublist.cons₂ _ ih

theorem mem_treeRemove {t : List (Entry K P × Nat)} (e : Entry K P)
    (hnd : (t.map Prod.fst).Nodup) (e' : Entry K P) (j : Nat) :
    (e', j) ∈ (treeRemove e t).2 ↔ ((e', j) ∈ t ∧ e' ≠ e) := by
  induction t with
  | nil => simp [treeRemove]
  | cons p l ih =>
    obtain ⟨e0, i0⟩ := p
    simp only [List.map_cons, List.nodup_cons] at hnd
    simp only [treeRemove]
    split
    · rename_i h
      subst h
      simp only [List.mem_cons]
      constructor
      · intro hm
        refine ⟨Or.inr hm, fun he => ?_⟩
        subst he
        exact hnd.1 (List.mem_map_of_mem Prod.fst hm)
      · rintro ⟨hm | hm, hne⟩
        · cases hm
          exact absurd rfl hne
        · exact hm
    · rename_i h
      simp only [List.mem_cons, ih hnd.2]
      constructor
      · rintro (hm | ⟨hm, hne⟩)
        · cases hm
          exact ⟨Or.inl rfl, fun he => h he.symm⟩
        · exact ⟨Or.inr hm, hne⟩
      · rintro ⟨hm | hm, hne⟩
        · exact Or.inl hm
        · exact Or.inr ⟨hm, hne⟩

theorem treeRemove_length {t : List (Entry K P × Nat)} {e : Entry K P} {i : Nat}
    (h : lookupT t e = some i) : (treeRemove e t).2.length + 1 = t.length := by
  induction t with
  | nil => simp [lookupT] at h
  | cons p l ih =>
    obtain ⟨e', i'⟩ := p
    simp only [lookupT] at h
    simp only [treeRemove]
    split
    · simp
    · rename_i hne
      rw [if_neg hne] at h
      simp only [List.length_cons]
      rw [← ih h]

theorem map_fst_treeInsert (a : Entry K P) (i : Nat) (t : List (Entry K P × Nat)) :
    (treeInsert a i t).map Prod.fst = setInsert a (t.map Prod.fst) := by
  induction t with
  | nil => rfl
  | cons p l ih =>
    obtain ⟨e', i'⟩ := p
    by_cases h1 : a < e'
    · simp [treeInsert, setInsert, h1]
    · by_cases h2 : a = e'
      · simp [treeInsert, setInsert, h1, h2]
      · simp [treeInsert, setInsert, h1, h2, ih]

theorem sorted_treeInsert {t : List (Entry K P × Nat)} (a : Entry K P) (i : Nat)
    (h : SortedT t) : SortedT (treeInsert a i t) := by
  unfold SortedT
  rw [map_fst_treeInsert]
  exact sorted_setInsert a _ h

theorem mem_treeInsert {t : List (Entry K P × Nat)} {a : Entry K P} (i : Nat)
    (ha : ¬ memT t a) (e' : Entry K P) (j : Nat) :
    (e', j) ∈ treeInsert a i t ↔ ((e', j) = (a, i) ∨ (e', j) ∈ t) := by
  induction t with
  | nil => simp [treeInsert]
  | cons p l ih =>
    obtain ⟨e0, i0⟩ := p
    have ha' : ¬ memT l a := by
      intro ⟨m, hm⟩
      exact ha ⟨m, List.mem_cons_of_mem _ hm⟩
    simp only [treeInsert]
    split
    · simp [List.mem_cons]
    · split
      · rename_i h1 h2
        exact absurd ⟨i0, h2 ▸ List.mem_cons_self _ _⟩ ha
      · simp only [List.mem_cons, ih ha']
        tauto

theorem treeInsert_length {t : List (Entry K P × Nat)} {a : Entry K P} (i : Nat)
    (ha : ¬ memT t a) : (treeInsert a i t).length = t.length + 1 := by
  induction t with
  | nil => rfl
  | cons p l ih =>
    obtain ⟨e0, i0⟩ := p
    have ha' : ¬ memT l a := by
      intro ⟨m, hm⟩
      exact ha ⟨m, List.mem_cons_of_mem _ hm⟩
    simp only [treeInsert]
    split
    · simp
    · split
      · rename_i h1 h2
        exact absurd ⟨i0, h2 ▸ List.mem_cons_self _ _⟩ ha
      · simp [ih ha']

theorem SortedT.nodupFst {t : List (Entry K P × Nat)} (h : SortedT t) :
    (t.map Prod.fst).Nodup :=
  h.nodup

theorem sortedT_of_sublist {t t' : List (Entry K P × Nat)} (hs : t'.Sublist t)
    (h : SortedT t) : SortedT t' :=
  List.Pairwise.sublist (hs.map Prod.fst) h

end CollectionLemmas

section MergeWalkLemmas

variable {K P : Type} [LinearOrder K] [LinearOrder P]

theorem mergeWalk_self (l : List (Entry K P)) : mergeWalk l l = ([], []) := by
  induction l with
  | nil => simp [mergeWalk]
  | cons x xs ih => simp [mergeWalk, ih]

theorem mergeWalk_nil_left (a : List (Entry K P)) : mergeWalk [] a = (a, []) := by
  induction a with
  | nil => simp [mergeWalk]
  | cons x xs ih => simp [mergeWalk, ih]

theorem mergeWalk_nil_right (b : List (Entry K P)) : mergeWalk b [] = ([], b) := by
  induction b with
  | nil => simp [mergeWalk]
  | cons x xs ih => simp [mergeWalk, ih]

theorem mergeWalk_added_sublist (b a : List (Entry K P)) :
    (mergeWalk b a).1.Sublist a := by
  induction b, a using mergeWalk.induct with
  | case1 => simp [mergeWalk]
  | case2 a as ih =>
    simp only [mergeWalk]
    exact ih.cons₂ a
  | case3 b bs ih =>
    simp only [mergeWalk]
    exact ih
  | case4 bs a as ih =>
    simp only [mergeWalk, if_pos rfl]
    exact ih.cons a
  | case5 b bs a as h1 h2 ih =>
    simp only [mergeWalk, if_neg h1, if_pos h2]
    exact ih.cons₂ a
  | case6 b bs a as h1 h2 ih =>
    simp only [mergeWalk, if_neg h1, if_neg h2]
    exact ih

theorem mergeWalk_removed_sublist (b a : List (Entry K P)) :
    (mergeWalk b a).2.Sublist b := by
  induction b, a using mergeWalk.induct with
  | case1 => simp [mergeWalk]
  | case2 a as ih =>
    simp only [mergeWalk]
    exact ih
  | case3 b bs ih =>
    simp only [mergeWalk]
    exact ih.cons₂ b
  | case4 bs a as ih =>
    simp only [mergeWalk, if_pos rfl]
    exact ih.cons a
  | case5 b bs a as h1 h2 ih =>
    simp only [mergeWalk, if_neg h1, if_pos h2]
    exact ih
  | case6 b bs a as h1 h2 ih =>
    simp only [mergeWalk, if_neg h1, if_neg h2]
    exact ih.cons₂ b

theorem mergeWalk_added_not_mem (b a : List (Entry K P))
    (hb : b.Sorted (· < ·)) (ha : a.Sorted (· < ·)) :
    ∀ e ∈ (mergeWalk b a).1, e ∉ b := by
  induction b, a using mergeWalk.induct with
  | case1 =>
    simp [mergeWalk]
  | case2 a as ih =>
    simp
  | case3 b bs ih =>
    intro e he
    have : (mergeWalk (b :: bs) []).1.Sublist ([] : List (Entry K P)) :=
      mergeWalk_added_sublist _ _
    rw [List.sublist_nil.mp this] at he
    cases he
  | case4 bs a as ih =>
    rw [List.sorted_cons] at hb ha
    intro e he hmem
    simp only [mergeWalk, if_pos rfl] at he
    rcases List.mem_cons.mp hmem with rfl | hmem
    · have : e ∈ as := (mergeWalk_added_sublist bs as).mem he
      exact lt_irrefl e (ha.1 e this)
    · exact ih hb.2 ha.2 e he hmem
  | case5 b bs a as h1 h2 ih =>
    rw [List.sorted_cons] at ha
    intro e he hmem
    simp only [mergeWalk, if_neg h1, if_pos h2] at he
    rcases List.mem_cons.mp he with rfl | he
    · rcases List.mem_cons.mp hmem with rfl | hmem
      · exact lt_irrefl e h2
      · rw [List.sorted_cons] at hb
        exact lt_irrefl e (lt_trans h2 (hb.1 e hmem))
    · exact ih hb ha.2 e he hmem
  | case6 b bs a as h1 h2 ih =>
    rw [List.sorted_cons] at hb
    have hba : b < a := lt_of_le_of_ne (not_lt.mp h2) h1
    intro e he hmem
    simp only [mergeWalk, if_neg h1, if_neg h2] at he
    rcases List.mem_cons.mp hmem with rfl | hmem
    · have hin : e ∈ a :: as := (mergeWalk_added_sublist bs (a :: as)).mem he
      rcases List.mem_cons.mp hin with rfl | hin
      · exact h1 rfl
      · rw [List.sorted_cons] at ha
        exact absurd (lt_trans hba (ha.1 e hin)) (lt_irrefl e)
    · exact ih hb.2 ha e he hmem

theorem mergeWalk_removed_not_mem (b a : List (Entry K P))
    (hb : b.Sorted (· < ·)) (ha : a.Sorted (· < ·)) :
    ∀ e ∈ (mergeWalk b a).2, e ∉ a := by
  induction b, a using mergeWalk.induct with
  | case1 =>
    simp [mergeWalk]
  | case2 a as ih =>
    intro e he
    have : (mergeWalk [] (a :: as)).2.Sublist ([] : List (Entry K P)) :=
      mergeWalk_removed_sublist _ _
    rw [List.sublist_nil.mp this] at he
    cases he
  | case3 b bs ih =>
    simp
  | case4 bs a as ih =>
    rw [List.sorted_cons] at hb ha
    intro e he hmem
    simp only [mergeWalk, if_pos rfl] at he
    rcases List.mem_cons.mp hmem with rfl | hmem
    · have : e ∈ bs := (mergeWalk_removed_sublist bs as).mem he
      exact lt_irrefl e (hb.1 e this)
    · exact ih hb.2 ha.2 e he hmem
  | case5 b bs a as h1 h2 ih =>
    rw [List.sorted_cons] at ha
    intro e he hmem
    simp only [mergeWalk, if_neg h1, if_pos h2] at he
    rcases List.mem_cons.mp hmem with rfl | hmem
    · have hin : e ∈ b :: bs := (mergeWalk_removed_sublist (b :: bs) as).mem he
      rcases List.mem_cons.mp hin with rfl | hin
      · exact lt_irrefl e h2
      · rw [List.sorted_cons] at hb
        exact lt_irrefl e (lt_trans h2 (hb.1 e hin))
    · exact ih hb ha.2 e he hmem
  | case6 b bs a as h1 h2 ih =>
    rw [List.sorted_cons] at hb
    have hba : b < a := lt_of_le_of_ne (not_lt.mp h2) h1
    intro e he hmem
    simp only [mergeWalk, if_neg h1, if_neg h2] at he
    rcases List.mem_cons.mp he with rfl | he
    · rcases List.mem_cons.mp hmem with rfl | hmem
      · exact h1 rfl
      · rw [List.sorted_cons] at ha
        exact absurd (lt_trans hba (ha.1 e hmem)) (lt_irrefl e)
    · exact ih hb.2 ha e he hmem

theorem mergeWalk_mem (b a : List (Entry K P))
    (hb : b.Sorted (· < ·)) (ha : a.Sorted (· < ·)) (e : Entry K P) :
    ((e ∈ b ∧ e ∉ (mergeWalk b a).2) ∨ e ∈ (mergeWalk b a).1) ↔ e ∈ a := by
  induction b, a using mergeWalk.induct with
  | case1 => simp [mergeWalk]
  | case2 a as ih =>
    rw [mergeWalk_nil_left]
    simp
  | case3 b bs ih =>
    rw [mergeWalk_nil_right]
    simp only [List.not_mem_nil, iff_false]
    rintro (⟨hmem, hnm⟩ | hA)
    · exact hnm hmem
    · exact hA
  | case4 bs a as ih =>
    rw [List.sorted_cons] at hb ha
    have ih' := ih hb.2 ha.2
    simp only [mergeWalk, if_pos rfl]
    constructor
    · rintro (⟨hmem, hnm⟩ | hA)
      · rcases List.mem_cons.mp hmem with rfl | hmem
        · exact List.mem_cons_self _ _
        · exact List.mem_cons_of_mem _ (ih'.mp (Or.inl ⟨hmem, hnm⟩))
      · exact List.mem_cons_of_mem _ (ih'.mp (Or.inr hA))
    · intro hin
      rcases List.mem_cons.mp hin with rfl | hin
      · refine Or.inl ⟨List.mem_cons_self _ _, fun hR => ?_⟩
        have : e ∈ bs := (mergeWalk_removed_sublist bs as).mem hR
        exact lt_irrefl e (hb.1 e this)
      · rcases ih'.mpr hin with ⟨hmem, hnm⟩ | hA
        · exact Or.inl ⟨List.mem_cons_of_mem _ hmem, hnm⟩
        · exact Or.inr hA
  | case5 b bs a as h1 h2 ih =>
    rw [List.sorted_cons] at ha
    have ih' := ih hb ha.2
    simp only [mergeWalk, if_neg h1, if_pos h2]
    constructor
    · rintro (⟨hmem, hnm⟩ | hA)
      · exact List.mem_cons_of_mem _ (ih'.mp (Or.inl ⟨hmem, hnm⟩))
      · rcases List.mem_cons.mp hA with rfl | hA
        · exact List.mem_cons_self _ _
        · exact List.mem_cons_of_mem _ (ih'.mp (Or.inr hA))
    · intro hin
      rcases List.mem_cons.mp hin with rfl | hin
      · exact Or.inr (List.mem_cons_self _ _)
      · rcases ih'.mpr hin with ⟨hmem, hnm⟩ | hA
        · exact Or.inl ⟨hmem, hnm⟩
        · exact Or.inr (List.mem_cons_of_mem _ hA)
  | case6 b bs a as h1 h2 ih =>
    rw [List.sorted_cons] at hb
    have hba : b < a := lt_of_le_of_ne (not_lt.mp h2) h1
    have ih' := ih hb.2 ha
    simp only [mergeWalk, if_neg h1, if_neg h2]
    constructor
    · rintro (⟨hmem, hnm⟩ | hA)
      · rcases List.mem_cons.mp hmem with rfl | hmem
        · exact absurd (List.mem_cons_self _ _) hnm
        · exact ih'.mp (Or.inl ⟨hmem, fun hR => hnm (List.mem_cons_of_mem _ hR)⟩)
      · exact ih'.mp (Or.inr hA)
    · intro hin
      rcases ih'.mpr hin with ⟨hmem, hnm⟩ | hA
      · refine Or.inl ⟨List.mem_cons_of_mem _ hmem, fun hR => ?_⟩
        rcases List.mem_cons.mp hR with rfl | hR
        · exact absurd (hb.1 _ hmem) (lt_irrefl _)
        · exact hnm hR
      · exact Or.inr hA

end MergeWalkLemmas

section InvariantMachinery

variable {K P : Type} [LinearOrder K] [LinearOrder P]

/-- The tree/array inverse invariant of `MeshDiffer` (spec §3, "Baseline
index"): the map and the dense array have the same size and are exact
inverses of each other. -/
def TreeArrayInv (t : List (Entry K P × Nat)) (ar : List (Entry K P)) : Prop :=
  t.length = ar.length ∧ ∀ e i, (e, i) ∈ t ↔ ar[i]? = some e

theorem fst_nodup_index_eq {t : List (Entry K P × Nat)}
    (hnd : (t.map Prod.fst).Nodup) {e : Entry K P} {i j : Nat}
    (hi : (e, i) ∈ t) (hj : (e, j) ∈ t) : i = j := by
  induction t with
  | nil => cases hi
  | cons p l ih =>
    obtain ⟨e0, i0⟩ := p
    simp only [List.map_cons, List.nodup_cons] at hnd
    rcases List.mem_cons.mp hi with hh | hi'
    · rcases List.mem_cons.mp hj with hh' | hj'
      · cases hh
        cases hh'
        rfl
      · cases hh
        exact absurd (List.mem_map_of_mem Prod.fst hj') hnd.1
    · rcases List.mem_cons.mp hj with hh' | hj'
      · cases hh'
        exact absurd (List.mem_map_of_mem Prod.fst hi') hnd.1
      · exact ih hnd.2 hi' hj'

theorem memT_lookup {t : List (Entry K P × Nat)} (hnd : (t.map Prod.fst).Nodup)
    {e : Entry K P} (hm : memT t e) : ∃ i, lookupT t e = some i ∧ (e, i) ∈ t := by
  obtain ⟨i, hi⟩ := hm
  exact ⟨i, (lookupT_eq_some hnd).mpr hi, hi⟩

/-- Effect of one `zipStep` on the tree, the array and the writes. -/
theorem zipStep_spec {st : CommitState K P} {a r : Entry K P}
    (hs : SortedT st.tree) (hinv : TreeArrayInv st.tree st.array)
    (hna : ¬ memT st.tree a) (hmr : memT st.tree r) :
    SortedT (zipStep st (a, r)).tree ∧
    TreeArrayInv (zipStep st (a, r)).tree (zipStep st (a, r)).array ∧
    (zipStep st (a, r)).array.length = st.array.length ∧
    (∀ e, memT (zipStep st (a, r)).tree e ↔ ((memT st.tree e ∧ e ≠ r) ∨ e = a)) ∧
    (zipStep st (a, r)).writes.length = st.writes.length + 1 := by
  obtain ⟨i0, hlk, hir⟩ := memT_lookup hs.nodupFst hmr
  have har : st.array[i0]? = some r := (hinv.2 r i0).mp hir
  have hi0lt : i0 < st.array.length := by
    rw [List.getElem?_eq_some] at har
    exact har.1
  have hrm1 : (treeRemove r st.tree).1 = some i0 := by
    rw [treeRemove_fst]
    exact hlk
  have hsub : (treeRemove r st.tree).2.Sublist st.tree := treeRemove_sublist r st.tree
  have hs1 : SortedT (treeRemove r st.tree).2 := sortedT_of_sublist hsub hs
  have hmem1 : ∀ e' j, ((e', j) ∈ (treeRemove r st.tree).2 ↔ ((e', j) ∈ st.tree ∧ e' ≠ r)) :=
    mem_treeRemove r hs.nodupFst
  have hna1 : ¬ memT (treeRemove r st.tree).2 a := by
    intro ⟨j, hj⟩
    exact hna ⟨j, ((hmem1 a j).mp hj).1⟩
  have hlen1 : (treeRemove r st.tree).2.length + 1 = st.tree.length :=
    treeRemove_length hlk
  have hstep : zipStep st (a, r) =
      ⟨treeInsert a i0 (treeRemove r st.tree).2,
       st.array.set i0 a,
       st.writes ++ [(a.primitive, i0)]⟩ := by
    simp only [zipStep, hrm1, Option.getD_some]
  rw [hstep]
  refine ⟨sorted_treeInsert a i0 hs1, ⟨?_, ?_⟩, by simp, ?_, by simp⟩
  · rw [treeInsert_length i0 hna1, List.length_set]
    have hlen0 := hinv.1
    omega
  · intro e j
    rw [mem_treeInsert i0 hna1, hmem1 e j, List.getElem?_set]
    by_cases hj : i0 = j
    · subst hj
      rw [if_pos rfl, if_pos hi0lt]
      constructor
      · rintro (h | ⟨hm, hne⟩)
        · cases h
          rfl
        · have := (hinv.2 e i0).mp hm
          rw [this] at har
          exact absurd (Option.some.inj har) hne
      · intro h
        cases Option.some.inj h
        exact Or.inl rfl
    · rw [if_neg hj, ← hinv.2 e j]
      constructor
      · rintro (h | ⟨hm, _⟩)
        · cases h
          exact absurd rfl hj
        · exact hm
      · intro hm
        refine Or.inr ⟨hm, fun hne => ?_⟩
        subst hne
        exact hj (fst_nodup_index_eq hs.nodupFst hir hm)
  · intro e
    constructor
    · rintro ⟨j, hj⟩
      rcases (mem_treeInsert i0 hna1 e j).mp hj with h | h
      · cases h
        exact Or.inr rfl
      · obtain ⟨hm, hne⟩ := (hmem1 e j).mp h
        exact Or.inl ⟨⟨j, hm⟩, hne⟩
    · rintro (⟨⟨j, hm⟩, hne⟩ | rfl)
      · exact ⟨j, (mem_treeInsert i0 hna1 e j).mpr (Or.inr ((hmem1 e j).mpr ⟨hm, hne⟩))⟩
      · exact ⟨i0, (mem_treeInsert i0 hna1 e i0).mpr (Or.inl rfl)⟩

/-- Effect of one `appendStep` on the tree, the array and the writes. -/
theorem appendStep_spec {st : CommitState K P} {e : Entry K P}
    (hs : SortedT st.tree) (hinv : TreeArrayInv st.tree st.array)
    (hne : ¬ memT st.tree e) :
    SortedT (appendStep st e).tree ∧
    TreeArrayInv (appendStep st e).tree (appendStep st e).array ∧
    (appendStep st e).array.length = st.array.length + 1 ∧
    (∀ e', memT (appendStep st e).tree e' ↔ (memT st.tree e' ∨ e' = e)) ∧
    (appendStep st e).writes.length = st.writes.length + 1 := by
  refine ⟨sorted_treeInsert e st.array.length hs, ⟨?_, ?_⟩, by simp [appendStep], ?_, by simp [appendStep]⟩
  · simp only [appendStep]
    rw [treeInsert_length _ hne]
    simp [hinv.1]
  · intro e' j
    simp only [appendStep]
    rw [mem_treeInsert _ hne, List.getElem?_append]
    by_cases hj : j < st.array.length
    · rw [if_pos hj, ← hinv.2 e' j]
      constructor
      · rintro (h | h)
        · cases h
          exact absurd hj (lt_irrefl _)
        · exact h
      · exact Or.inr
    · rw [if_neg hj]
      by_cases hj' : j = st.array.length
      · subst hj'
        simp only [Nat.sub_self, List.getElem?_cons_zero]
        constructor
        · rintro (h | h)
          · cases h
            rfl
          · have := (hinv.2 e' st.array.length).mp h
            rw [List.getElem?_eq_some] at this
            exact absurd this.1 (lt_irrefl _)
        · intro h
          cases Option.some.inj h
          exact Or.inl rfl
      · have hj2 : 0 < j - st.array.length := by omega
        rw [List.getElem?_cons]
        rw [if_neg (by omega)]
        simp only [List.getElem?_nil]
        constructor
        · rintro (h | h)
          · cases h
            exact absurd rfl hj'
          · have := (hinv.2 e' j).mp h
            rw [List.getElem?_eq_some] at this
            exact absurd this.1 (by omega)
        · intro h
          cases h
  · intro e'
    simp only [appendStep]
    constructor
    · rintro ⟨j, hj⟩
      rcases (mem_treeInsert _ hne e' j).mp hj with h | h
      · cases h
        exact Or.inr rfl
      · exact Or.inl ⟨j, h⟩
    · rintro (⟨j, hm⟩ | rfl)
      · exact ⟨j, (mem_treeInsert _ hne e' j).mpr (Or.inr hm)⟩
      · exact ⟨st.array.length, (mem_treeInsert _ hne e' _).mpr (Or.inl rfl)⟩

/-- Effect of one `removeStep` (a swap-remove) on the tree, the array and
the writes.  Covers both the pop-last case and the relocation case. -/
theorem removeStep_spec {st : CommitState K P} {e : Entry K P}
    (hs : SortedT st.tree) (hinv : TreeArrayInv st.tree st.array)
    (hme : memT st.tree e) :
    SortedT (removeStep st e).tree ∧
    TreeArrayInv (removeStep st e).tree (removeStep st e).array ∧
    (removeStep st e).array.length + 1 = st.array.length ∧
    (∀ e', memT (removeStep st e).tree e' ↔ (memT st.tree e' ∧ e' ≠ e)) ∧
    (removeStep st e).writes.length ≤ st.writes.length + 1 := by
  obtain ⟨i0, hlk, hie⟩ := memT_lookup hs.nodupFst hme
  have hae : st.array[i0]? = some e := (hinv.2 e i0).mp hie
  have hi0lt : i0 < st.array.length := (List.getElem?_eq_some.mp hae).1
  have hrm1 : (treeRemove e st.tree).1 = some i0 := by
    rw [treeRemove_fst]
    exact hlk
  have hsub1 : (treeRemove e st.tree).2.Sublist st.tree := treeRemove_sublist e st.tree
  have hs1 : SortedT (treeRemove e st.tree).2 := sortedT_of_sublist hsub1 hs
  have hmem1 := mem_treeRemove e hs.nodupFst
  have hlen1 : (treeRemove e st.tree).2.length + 1 = st.tree.length := treeRemove_length hlk
  have hlen0 := hinv.1
  by_cases hlast : i0 + 1 = st.array.length
  · have hstep : removeStep st e =
        ⟨(treeRemove e st.tree).2, st.array.dropLast, st.writes⟩ := by
      simp only [removeStep, hrm1, Option.getD_some, if_pos hlast]
    rw [hstep]
    dsimp only
    refine ⟨hs1, ⟨?_, ?_⟩, ?_, ?_, by omega⟩
    · rw [List.length_dropLast]
      omega
    · intro e' j
      rw [hmem1 e' j, List.dropLast_eq_take, List.getElem?_take]
      constructor
      · rintro ⟨hm, hne⟩
        have haj : st.array[j]? = some e' := (hinv.2 e' j).mp hm
        have hjlt : j < st.array.length := (List.getElem?_eq_some.mp haj).1
        have hji : j ≠ i0 := by
          intro hji
          subst hji
          rw [haj] at hae
          exact hne (Option.some.inj hae)
        rw [if_pos (by omega)]
        exact haj
      · intro h
        by_cases hjlt : j < st.array.length - 1
        · rw [if_pos hjlt] at h
          have hm := (hinv.2 e' j).mpr h
          refine ⟨hm, fun hne => ?_⟩
          subst hne
          have := fst_nodup_index_eq hs.nodupFst hie hm
          omega
        · rw [if_neg hjlt] at h
          cases h
    · rw [List.length_dropLast]
      omega
    · intro e'
      constructor
      · rintro ⟨j, hj⟩
        obtain ⟨hm, hne⟩ := (hmem1 e' j).mp hj
        exact ⟨⟨j, hm⟩, hne⟩
      · rintro ⟨⟨j, hm⟩, hne⟩
        exact ⟨j, (hmem1 e' j).mpr ⟨hm, hne⟩⟩
  · have hrelx : ∃ rel, st.array[st.array.length - 1]? = some rel := by
      have hx : st.array.length - 1 < st.array.length := by omega
      exact ⟨st.array[st.array.length - 1], List.getElem?_eq_getElem hx⟩
    obtain ⟨rel, hrel⟩ := hrelx
    have hgl : st.array.getLast? = some rel := by
      rw [List.getLast?_eq_getElem?]
      exact hrel
    have hreli : (rel, st.array.length - 1) ∈ st.tree := (hinv.2 rel _).mpr hrel
    have hrelne : rel ≠ e := by
      intro hh
      subst hh
      have := fst_nodup_index_eq hs.nodupFst hie hreli
      omega
    have hrelm1 : (rel, st.array.length - 1) ∈ (treeRemove e st.tree).2 :=
      (hmem1 rel _).mpr ⟨hreli, hrelne⟩
    have hlk2 : lookupT (treeRemove e st.tree).2 rel = some (st.array.length - 1) :=
      (lookupT_eq_some hs1.nodupFst).mpr hrelm1
    have hsub2 := treeRemove_sublist rel (treeRemove e st.tree).2
    have hs2 : SortedT (treeRemove rel (treeRemove e st.tree).2).2 :=
      sortedT_of_sublist hsub2 hs1
    have hmem2 := mem_treeRemove rel hs1.nodupFst
    have hlen2 : (treeRemove rel (treeRemove e st.tree).2).2.length + 1 =
        (treeRemove e st.tree).2.length := treeRemove_length hlk2
    have hna2 : ¬ memT (treeRemove rel (treeRemove e st.tree).2).2 rel := by
      rintro ⟨j, hj⟩
      exact ((hmem2 rel j).mp hj).2 rfl
    have hstep : removeStep st e =
        ⟨treeInsert rel i0 (treeRemove rel (treeRemove e st.tree).2).2,
         st.array.dropLast.set i0 rel,
         st.writes ++ [(rel.primitive, i0)]⟩ := by
      simp only [removeStep, hrm1, Option.getD_some, if_neg hlast, hgl]
    rw [hstep]
    dsimp only
    refine ⟨sorted_treeInsert rel i0 hs2, ⟨?_, ?_⟩, ?_, ?_, by simp⟩
    · rw [treeInsert_length i0 hna2]
      simp only [List.length_set, List.length_dropLast]
      omega
    · intro e' j
      rw [mem_treeInsert i0 hna2, hmem2 e' j, hmem1 e' j, List.getElem?_set]
      have hdl : st.array.dropLast.length = st.array.length - 1 := List.length_dropLast _
      by_cases hj : i0 = j
      · subst hj
        rw [if_pos rfl, hdl, if_pos (by omega)]
        constructor
        · rintro (h | ⟨⟨hm, hne⟩, hner⟩)
          · cases h
            rfl
          · have hx := (hinv.2 e' i0).mp hm
            rw [hx] at hae
            exact absurd (Option.some.inj hae) hne
        · intro h
          have he' : e' = rel := (Option.some.inj h).symm
          exact Or.inl (by rw [he'])
      · rw [if_neg hj, List.dropLast_eq_take, List.getElem?_take]
        by_cases hjlt : j < st.array.length - 1
        · rw [if_pos hjlt]
          constructor
          · rintro (h | ⟨⟨hm, _⟩, _⟩)
            · exact absurd (congrArg Prod.snd h).symm hj
            · exact (hinv.2 e' j).mp hm
          · intro h
            have hm := (hinv.2 e' j).mpr h
            refine Or.inr ⟨⟨hm, fun hne => ?_⟩, fun hner => ?_⟩
            · subst hne
              exact hj (fst_nodup_index_eq hs.nodupFst hie hm)
            · subst hner
              have := fst_nodup_index_eq hs.nodupFst hreli hm
              omega
        · rw [if_neg hjlt]
          constructor
          · rintro (h | ⟨⟨hm, _⟩, hner⟩)
            · exact absurd (congrArg Prod.snd h).symm hj
            · have haj := (hinv.2 e' j).mp hm
              have hjlt2 : j < st.array.length := (List.getElem?_eq_some.mp haj).1
              have hje : j = st.array.length - 1 := by omega
              subst hje
              rw [hrel] at haj
              exact absurd (Option.some.inj haj).symm hner
          · intro h
            cases h
    · simp only [List.length_set, List.length_dropLast]
      omega
    · intro e'
      constructor
      · rintro ⟨j, hj⟩
        rcases (mem_treeInsert i0 hna2 e' j).mp hj with h | h
        · have he' : e' = rel := congrArg Prod.fst h
          subst he'
          exact ⟨⟨_, hreli⟩, hrelne⟩
        · obtain ⟨hm2, hner⟩ := (hmem2 e' j).mp h
          obtain ⟨hm1, hne⟩ := (hmem1 e' j).mp hm2
          exact ⟨⟨j, hm1⟩, hne⟩
      · rintro ⟨⟨j, hm⟩, hne⟩
        by_cases hr : e' = rel
        · subst hr
          exact ⟨i0, (mem_treeInsert i0 hna2 _ _).mpr (Or.inl rfl)⟩
        · exact ⟨j, (mem_treeInsert i0 hna2 e' j).mpr
            (Or.inr ((hmem2 e' j).mpr ⟨(hmem1 e' j).mpr ⟨hm, hne⟩, hr⟩))⟩

/-- Invariant preservation and net effect of the whole paired add/remove
loop of `commit`. -/
theorem zipFold_spec (prs : List (Entry K P × Entry K P)) (st : CommitState K P)
    (hs : SortedT st.tree) (hinv : TreeArrayInv st.tree st.array)
    (hnda : (prs.map Prod.fst).Nodup) (hndr : (prs.map Prod.snd).Nodup)
    (hdisj : ∀ e ∈ prs.map Prod.fst, e ∉ prs.map Prod.snd)
    (hadds : ∀ e ∈ prs.map Prod.fst, ¬ memT st.tree e)
    (hrems : ∀ e ∈ prs.map Prod.snd, memT st.tree e) :
    SortedT (prs.foldl zipStep st).tree ∧
    TreeArrayInv (prs.foldl zipStep st).tree (prs.foldl zipStep st).array ∧
    (prs.foldl zipStep st).array.length = st.array.length ∧
    (∀ e, memT (prs.foldl zipStep st).tree e ↔
      ((memT st.tree e ∧ e ∉ prs.map Prod.snd) ∨ e ∈ prs.map Prod.fst)) ∧
    (prs.foldl zipStep st).writes.length = st.writes.length + prs.length := by
  induction prs generalizing st with
  | nil => exact ⟨hs, hinv, rfl, fun e => by simp, by simp⟩
  | cons p rest ih =>
    obtain ⟨a, r⟩ := p
    have har := hdisj a (by simp)
    simp only [List.map_cons, List.nodup_cons] at hnda hndr
    simp only [List.map_cons, List.mem_cons, not_or] at har
    have hmr : memT st.tree r := hrems r (by simp)
    have hna : ¬ memT st.tree a := hadds a (by simp)
    obtain ⟨hs1, hinv1, hlen1, hchar1, hw1⟩ := zipStep_spec hs hinv hna hmr
    have hadds1 : ∀ e ∈ rest.map Prod.fst, ¬ memT (zipStep st (a, r)).tree e := by
      intro e he
      rw [hchar1 e]
      rintro (⟨hm, _⟩ | rfl)
      · exact hadds e (by simp [he]) hm
      · exact hnda.1 he
    have hrems1 : ∀ e ∈ rest.map Prod.snd, memT (zipStep st (a, r)).tree e := by
      intro e he
      rw [hchar1 e]
      refine Or.inl ⟨hrems e (by simp [he]), fun hre => ?_⟩
      subst hre
      exact hndr.1 he
    have hdisj1 : ∀ e ∈ rest.map Prod.fst, e ∉ rest.map Prod.snd := by
      intro e he he2
      exact hdisj e (by simp [he]) (by simp [he2])
    obtain ⟨hs2, hinv2, hlen2, hchar2, hw2⟩ :=
      ih (zipStep st (a, r)) hs1 hinv1 hnda.2 hndr.2 hdisj1 hadds1 hrems1
    simp only [List.foldl_cons]
    refine ⟨hs2, hinv2, hlen2.trans hlen1, ?_, by simp only [List.length_cons]; omega⟩
    intro e
    rw [hchar2 e, hchar1 e]
    simp only [List.map_cons, List.mem_cons, not_or]
    constructor
    · rintro (⟨hX, hS⟩ | hF)
      · rcases hX with ⟨hM, hR⟩ | rfl
        · exact Or.inl ⟨hM, hR, hS⟩
        · exact Or.inr (Or.inl rfl)
      · exact Or.inr (Or.inr hF)
    · rintro (⟨hM, hR, hS⟩ | hA | hF)
      · exact Or.inl ⟨Or.inl ⟨hM, hR⟩, hS⟩
      · subst hA
        exact Or.inl ⟨Or.inr rfl, har.2⟩
      · exact Or.inr hF

/-- Invariant preservation and net effect of the surplus-add loop of
`commit`. -/
theorem appendFold_spec (es : List (Entry K P)) (st : CommitState K P)
    (hs : SortedT st.tree) (hinv : TreeArrayInv st.tree st.array)
    (hnd : es.Nodup)
    (hni : ∀ e ∈ es, ¬ memT st.tree e) :
    SortedT (es.foldl appendStep st).tree ∧
    TreeArrayInv (es.foldl appendStep st).tree (es.foldl appendStep st).array ∧
    (es.foldl appendStep st).array.length = st.array.length + es.length ∧
    (∀ e, memT (es.foldl appendStep st).tree e ↔ (memT st.tree e ∨ e ∈ es)) ∧
    (es.foldl appendStep st).writes.length = st.writes.length + es.length := by
  induction es generalizing st with
  | nil => exact ⟨hs, hinv, rfl, fun e => by simp, rfl⟩
  | cons a rest ih =>
    rw [List.nodup_cons] at hnd
    obtain ⟨hs1, hinv1, hlen1, hchar1, hw1⟩ := appendStep_spec hs hinv (hni a (by simp))
    have hni1 : ∀ e ∈ rest, ¬ memT (appendStep st a).tree e := by
      intro e he
      rw [hchar1 e]
      rintro (hm | rfl)
      · exact hni e (by simp [he]) hm
      · exact hnd.1 he
    obtain ⟨hs2, hinv2, hlen2, hchar2, hw2⟩ := ih (appendStep st a) hs1 hinv1 hnd.2 hni1
    simp only [List.foldl_cons]
    refine ⟨hs2, hinv2, by simp only [List.length_cons]; omega, ?_,
      by simp only [List.length_cons]; omega⟩
    intro e
    rw [hchar2 e, hchar1 e]
    simp only [List.mem_cons]
    tauto

/-- Invariant preservation and net effect of the surplus-remove
(swap-remove) loop of `commit`. -/
theorem removeFold_spec (es : List (Entry K P)) (st : CommitState K P)
    (hs : SortedT st.tree) (hinv : TreeArrayInv st.tree st.array)
    (hnd : es.Nodup)
    (hmem : ∀ e ∈ es, memT st.tree e) :
    SortedT (es.foldl removeStep st).tree ∧
    TreeArrayInv (es.foldl removeStep st).tree (es.foldl removeStep st).array ∧
    (es.foldl removeStep st).array.length + es.length = st.array.length ∧
    (∀ e, memT (es.foldl removeStep st).tree e ↔ (memT st.tree e ∧ e ∉ es)) ∧
    (es.foldl removeStep st).writes.length ≤ st.writes.length + es.length := by
  induction es generalizing st with
  | nil => exact ⟨hs, hinv, rfl, fun e => by simp, by simp⟩
  | cons a rest ih =>
    rw [List.nodup_cons] at hnd
    obtain ⟨hs1, hinv1, hlen1, hchar1, hw1⟩ := removeStep_spec hs hinv (hmem a (by simp))
    have hmem1 : ∀ e ∈ rest, memT (removeStep st a).tree e := by
      intro e he
      rw [hchar1 e]
      exact ⟨hmem e (by simp [he]), fun hx => hnd.1 (hx ▸ he)⟩
    obtain ⟨hs2, hinv2, hlen2, hchar2, hw2⟩ := ih (removeStep st a) hs1 hinv1 hnd.2 hmem1
    simp only [List.foldl_cons]
    refine ⟨hs2, hinv2, by simp only [List.length_cons]; omega, ?_,
      by simp only [List.length_cons]; omega⟩
    intro e
    rw [hchar2 e, hchar1 e]
    simp only [List.mem_cons, not_or]
    constructor
    · rintro ⟨⟨hM, hA⟩, hR⟩
      exact ⟨hM, hA, hR⟩
    · rintro ⟨hM, hA, hR⟩
      exact ⟨⟨hM, hA⟩, hR⟩

end InvariantMachinery

section CollectDiffLemmas

variable {K P : Type} [LinearOrder K] [LinearOrder P]

/-- The full state invariant of `MeshDiffer`, preserved by `stage` and
`commit` from `new` (proved below): the tree is a strictly sorted map, tree
and dense array are exact inverses, the overlay and touched-key sets are
strictly sorted, and every overlay entry's key has been touched. -/
def Valid (s : MeshDiffer K P) : Prop :=
  SortedT s.tree ∧ TreeArrayInv s.tree s.array ∧
  s.alter_entries.Sorted (· < ·) ∧ s.alter_keys.Sorted (· < ·) ∧
  (∀ e ∈ s.alter_entries, e.key ∈ s.alter_keys)

/-- The one-key diff of `commit`: `(added, removed)` for this key's ranges. -/
def keyDiff (s : MeshDiffer K P) (k : K) : List (Entry K P) × List (Entry K P) :=
  mergeWalk (rangeTree k s.tree) (rangeSet k s.alter_entries)

theorem memT_iff_mem_map {t : List (Entry K P × Nat)} {e : Entry K P} :
    memT t e ↔ e ∈ t.map Prod.fst := by
  constructor
  · rintro ⟨i, hi⟩
    exact List.mem_map_of_mem Prod.fst hi
  · intro h
    obtain ⟨p, hp, hpe⟩ := List.mem_map.mp h
    subst hpe
    exact ⟨p.2, by rw [Prod.mk.eta]; exact hp⟩

theorem mem_rangeTree {k : K} {t : List (Entry K P × Nat)} {e : Entry K P} :
    e ∈ rangeTree k t ↔ (memT t e ∧ e.key = k) := by
  rw [rangeTree, List.mem_filter, memT_iff_mem_map]
  simp

theorem mem_rangeSet {k : K} {l : List (Entry K P)} {e : Entry K P} :
    e ∈ rangeSet k l ↔ (e ∈ l ∧ e.key = k) := by
  rw [rangeSet, List.mem_filter]
  simp

theorem rangeTree_sorted {k : K} {t : List (Entry K P × Nat)} (h : SortedT t) :
    (rangeTree k t).Sorted (· < ·) :=
  List.Pairwise.filter _ h

theorem rangeSet_sorted {k : K} {l : List (Entry K P)} (h : l.Sorted (· < ·)) :
    (rangeSet k l).Sorted (· < ·) :=
  List.Pairwise.filter _ h

theorem keyDiff_added_key {s : MeshDiffer K P} {k : K} {e : Entry K P}
    (h : e ∈ (keyDiff s k).1) : e.key = k :=
  (mem_rangeSet.mp ((mergeWalk_added_sublist _ _).mem h)).2

theorem keyDiff_removed_key {s : MeshDiffer K P} {k : K} {e : Entry K P}
    (h : e ∈ (keyDiff s k).2) : e.key = k :=
  (mem_rangeTree.mp ((mergeWalk_removed_sublist _ _).mem h)).2

theorem collectDiff_eq (s : MeshDiffer K P) :
    collectDiff s = ((s.alter_keys.map fun k => (keyDiff s k).1).join,
                     (s.alter_keys.map fun k => (keyDiff s k).2).join) := by
  have H : ∀ (ks : List K) (acc : List (Entry K P) × List (Entry K P)),
      ks.foldl (fun acc k =>
        let d := mergeWalk (rangeTree k s.tree) (rangeSet k s.alter_entries)
        (acc.1 ++ d.1, acc.2 ++ d.2)) acc
      = (acc.1 ++ (ks.map fun k => (keyDiff s k).1).join,
         acc.2 ++ (ks.map fun k => (keyDiff s k).2).join) := by
    intro ks
    induction ks with
    | nil => simp
    | cons k ks ih =>
      intro acc
      simp only [List.foldl_cons, List.map_cons, List.join, ih, keyDiff]
      simp [List.append_assoc]
  unfold collectDiff
  rw [H]
  simp

theorem mem_collect_added {s : MeshDiffer K P} {e : Entry K P} :
    e ∈ (collectDiff s).1 ↔ ∃ k ∈ s.alter_keys, e ∈ (keyDiff s k).1 := by
  rw [collectDiff_eq]
  simp only [List.mem_join, List.mem_map]
  constructor
  · rintro ⟨l, ⟨k, hk, rfl⟩, hl⟩
    exact ⟨k, hk, hl⟩
  · rintro ⟨k, hk, he⟩
    exact ⟨_, ⟨k, hk, rfl⟩, he⟩

theorem mem_collect_removed {s : MeshDiffer K P} {e : Entry K P} :
    e ∈ (collectDiff s).2 ↔ ∃ k ∈ s.alter_keys, e ∈ (keyDiff s k).2 := by
  rw [collectDiff_eq]
  simp only [List.mem_join, List.mem_map]
  constructor
  · rintro ⟨l, ⟨k, hk, rfl⟩, hl⟩
    exact ⟨k, hk, hl⟩
  · rintro ⟨k, hk, he⟩
    exact ⟨_, ⟨k, hk, rfl⟩, he⟩

theorem collect_added_not_memT {s : MeshDiffer K P} (hv : Valid s) :
    ∀ e ∈ (collectDiff s).1, ¬ memT s.tree e := by
  intro e he hm
  obtain ⟨k, hk, hek⟩ := mem_collect_added.mp he
  have hkey : e.key = k := keyDiff_added_key hek
  have hnm : e ∉ rangeTree k s.tree :=
    mergeWalk_added_not_mem _ _ (rangeTree_sorted hv.1) (rangeSet_sorted hv.2.2.1) e hek
  exact hnm (mem_rangeTree.mpr ⟨hm, hkey⟩)

theorem collect_removed_memT {s : MeshDiffer K P} (hv : Valid s) :
    ∀ e ∈ (collectDiff s).2, memT s.tree e := by
  intro e he
  obtain ⟨k, hk, hek⟩ := mem_collect_removed.mp he
  exact (mem_rangeTree.mp ((mergeWalk_removed_sublist _ _).mem hek)).1

theorem collect_disjoint {s : MeshDiffer K P} (hv : Valid s) :
    ∀ e ∈ (collectDiff s).1, e ∉ (collectDiff s).2 := by
  intro e he he2
  obtain ⟨k, hk, hek⟩ := mem_collect_added.mp he
  obtain ⟨k', hk', hek'⟩ := mem_collect_removed.mp he2
  have h1 : e.key = k := keyDiff_added_key hek
  have h2 : e.key = k' := keyDiff_removed_key hek'
  subst h1
  cases h2
  have hnm : e ∉ rangeTree e.key s.tree :=
    mergeWalk_added_not_mem _ _ (rangeTree_sorted hv.1) (rangeSet_sorted hv.2.2.1) e hek
  exact hnm ((mergeWalk_removed_sublist _ _).mem hek')

theorem collect_added_nodup {s : MeshDiffer K P} (hv : Valid s) :
    (collectDiff s).1.Nodup := by
  rw [collectDiff_eq]
  rw [List.nodup_join]
  constructor
  · intro l hl
    obtain ⟨k, hk, rfl⟩ := List.mem_map.mp hl
    exact ((mergeWalk_added_sublist _ _).nodup (rangeSet_sorted hv.2.2.1).nodup)
  · have hknd : s.alter_keys.Pairwise (· ≠ ·) := hv.2.2.2.1.imp ne_of_lt
    refine (List.pairwise_map.mpr (hknd.imp ?_))
    intro k k' hne e he he'
    exact hne ((keyDiff_added_key he) ▸ (keyDiff_added_key he') ▸ rfl)

theorem collect_removed_nodup {s : MeshDiffer K P} (hv : Valid s) :
    (collectDiff s).2.Nodup := by
  rw [collectDiff_eq]
  rw [List.nodup_join]
  constructor
  · intro l hl
    obtain ⟨k, hk, rfl⟩ := List.mem_map.mp hl
    exact ((mergeWalk_removed_sublist _ _).nodup (rangeTree_sorted hv.1).nodup)
  · have hknd : s.alter_keys.Pairwise (· ≠ ·) := hv.2.2.2.1.imp ne_of_lt
    refine (List.pairwise_map.mpr (hknd.imp ?_))
    intro k k' hne e he he'
    exact hne ((keyDiff_removed_key he) ▸ (keyDiff_removed_key he') ▸ rfl)

end CollectDiffLemmas

section CommitSpec

variable {K P : Type} [LinearOrder K] [LinearOrder P]

theorem map_fst_zip_eq_take {α β : Type} (l1 : List α) (l2 : List β) :
    (l1.zip l2).map Prod.fst = l1.take l2.length := by
  induction l1 generalizing l2 with
  | nil => simp
  | cons a l1 ih =>
    cases l2 with
    | nil => simp
    | cons b l2 => simp [ih]

theorem map_snd_zip_eq_take {α β : Type} (l1 : List α) (l2 : List β) :
    (l1.zip l2).map Prod.snd = l2.take l1.length := by
  induction l1 generalizing l2 with
  | nil => simp
  | cons a l1 ih =>
    cases l2 with
    | nil => simp
    | cons b l2 => simp [ih]

theorem not_mem_take_of_mem_drop {α : Type} {l : List α} (h : l.Nodup) (n : Nat)
    {e : α} (he : e ∈ l.drop n) : e ∉ l.take n := by
  intro ht
  have hh : (l.take n ++ l.drop n).Nodup := (List.take_append_drop n l).symm ▸ h
  exact (List.nodup_append.mp hh).2.2 ht he

theorem mem_take_or_drop {α : Type} (l : List α) (n : Nat) (e : α) :
    e ∈ l ↔ (e ∈ l.take n ∨ e ∈ l.drop n) := by
  conv_lhs => rw [← List.take_append_drop n l]
  exact List.mem_append

/-- The state `commit` has built just before it sorts the writes (the tree,
array and raw write list after all three loops). -/
def commitStateAfter (s : MeshDiffer K P) : CommitState K P :=
  if (collectDiff s).2.length < (collectDiff s).1.length then
    ((collectDiff s).1.drop (collectDiff s).2.length).foldl appendStep
      (((collectDiff s).1.zip (collectDiff s).2).foldl zipStep ⟨s.tree, s.array, []⟩)
  else
    ((collectDiff s).2.drop (collectDiff s).1.length).foldl removeStep
      (((collectDiff s).1.zip (collectDiff s).2).foldl zipStep ⟨s.tree, s.array, []⟩)

theorem commit_eq (s : MeshDiffer K P) :
    s.commit =
      (⟨s.array.length + (collectDiff s).1.length - (collectDiff s).2.length,
        (sortWrites (commitStateAfter s).writes).map Prod.fst,
        (sortWrites (commitStateAfter s).writes).map Prod.snd⟩,
       { s with tree := (commitStateAfter s).tree, array := (commitStateAfter s).array }) := by
  unfold MeshDiffer.commit commitStateAfter
  by_cases hc : (collectDiff s).2.length < (collectDiff s).1.length
  · simp only [if_pos hc]
  · simp only [if_neg hc]

/-- Invariant preservation and net membership effect of the editing loops of
`commit`, for a valid state. -/
theorem commitStateAfter_spec {s : MeshDiffer K P} (hv : Valid s) :
    SortedT (commitStateAfter s).tree ∧
    TreeArrayInv (commitStateAfter s).tree (commitStateAfter s).array ∧
    (commitStateAfter s).array.length + (collectDiff s).2.length
      = s.array.length + (collectDiff s).1.length ∧
    (∀ e, memT (commitStateAfter s).tree e ↔
      ((memT s.tree e ∧ e ∉ (collectDiff s).2) ∨ e ∈ (collectDiff s).1)) := by
  have hAnd := collect_added_nodup hv
  have hRnd := collect_removed_nodup hv
  have hAnm := collect_added_not_memT hv
  have hRm := collect_removed_memT hv
  have hARd := collect_disjoint hv
  obtain ⟨hst, hinv, hsae, hsak, hkeys⟩ := hv
  set A := (collectDiff s).1 with hA
  set R := (collectDiff s).2 with hR
  unfold commitStateAfter
  rw [← hA, ← hR]
  by_cases hc : R.length < A.length
  · rw [if_pos hc]
    have hfst : (A.zip R).map Prod.fst = A.take R.length := map_fst_zip_eq_take A R
    have hsnd : (A.zip R).map Prod.snd = R := by
      rw [map_snd_zip_eq_take, List.take_all_of_le (le_of_lt hc)]
    obtain ⟨hs1, hinv1, hlen1, hchar1, _⟩ :=
      zipFold_spec (A.zip R) ⟨s.tree, s.array, []⟩ hst hinv
        (by rw [hfst]; exact List.Nodup.sublist (List.take_sublist _ _) hAnd)
        (by rw [hsnd]; exact hRnd)
        (by
          rw [hfst, hsnd]
          intro e he
          exact hARd e ((List.take_sublist _ _).mem he))
        (by
          rw [hfst]
          intro e he
          exact hAnm e ((List.take_sublist _ _).mem he))
        (by
          rw [hsnd]
          exact hRm)
    obtain ⟨hs2, hinv2, hlen2, hchar2, _⟩ :=
      appendFold_spec (A.drop R.length) _ hs1 hinv1
        (List.Nodup.sublist (List.drop_sublist _ _) hAnd)
        (by
          intro e he
          rw [hchar1 e, hfst, hsnd]
          rintro (⟨hm, _⟩ | ht)
          · exact hAnm e ((List.drop_sublist _ _).mem he) hm
          · exact not_mem_take_of_mem_drop hAnd R.length he ht)
    refine ⟨hs2, hinv2, ?_, ?_⟩
    · rw [hlen2, hlen1]
      dsimp only
      rw [List.length_drop]
      omega
    · intro e
      rw [hchar2 e, hchar1 e, hfst, hsnd]
      dsimp only
      have hsplit := mem_take_or_drop A R.length e
      tauto
  · rw [if_neg hc]
    have hcle : A.length ≤ R.length := le_of_not_lt hc
    have hfst : (A.zip R).map Prod.fst = A := by
      rw [map_fst_zip_eq_take, List.take_all_of_le hcle]
    have hsnd : (A.zip R).map Prod.snd = R.take A.length := map_snd_zip_eq_take A R
    obtain ⟨hs1, hinv1, hlen1, hchar1, _⟩ :=
      zipFold_spec (A.zip R) ⟨s.tree, s.array, []⟩ hst hinv
        (by rw [hfst]; exact hAnd)
        (by rw [hsnd]; exact List.Nodup.sublist (List.take_sublist _ _) hRnd)
        (by
          rw [hfst, hsnd]
          intro e he ht
          exact hARd e he ((List.take_sublist _ _).mem ht))
        (by
          rw [hfst]
          exact hAnm)
        (by
          rw [hsnd]
          intro e he
          exact hRm e ((List.take_sublist _ _).mem he))
    obtain ⟨hs2, hinv2, hlen2, hchar2, _⟩ :=
      removeFold_spec (R.drop A.length) _ hs1 hinv1
        (List.Nodup.sublist (List.drop_sublist _ _) hRnd)
        (by
          intro e he
          rw [hchar1 e, hfst, hsnd]
          exact Or.inl ⟨hRm e ((List.drop_sublist _ _).mem he),
            not_mem_take_of_mem_drop hRnd A.length he⟩)
    refine ⟨hs2, hinv2, ?_, ?_⟩
    · rw [List.length_drop] at hlen2
      dsimp only at hlen1
      omega
    · intro e
      rw [hchar2 e, hchar1 e, hfst, hsnd]
      dsimp only
      have hsplit := mem_take_or_drop R A.length e
      have hdisj := fun he => hARd e he
      tauto

end CommitSpec

section StageLemmas

variable {K P : Type} [LinearOrder K] [LinearOrder P]

theorem sorted_ext {α : Type} [LinearOrder α] {l1 l2 : List α}
    (h1 : l1.Sorted (· < ·)) (h2 : l2.Sorted (· < ·))
    (hm : ∀ x, x ∈ l1 ↔ x ∈ l2) : l1 = l2 := by
  haveI : IsAntisymm α (· < ·) := ⟨fun a b hab hba => absurd (lt_trans hab hba) (lt_irrefl a)⟩
  exact List.eq_of_perm_of_sorted ((List.perm_ext_iff_of_nodup h1.nodup h2.nodup).mpr hm) h1 h2

theorem assignGo_cons (c : Option (K × P)) (o : Nat) (e : Entry K P)
    (rest : List (Entry K P)) :
    assignGo c o (e :: rest) =
      (if c = some (e.key, e.primitive)
        then ({ e with ordinal := o + 1 } : Entry K P)
        else { e with ordinal := 0 })
      :: assignGo (some (e.key, e.primitive))
          (if c = some (e.key, e.primitive) then o + 1 else 0) rest := by
  by_cases hc : c = some (e.key, e.primitive)
  · simp only [assignGo, if_pos hc]
  · simp only [assignGo, if_neg hc]

theorem entry_step_lt (e1 e2 : Entry K P) (v : Nat) (hle : e1 ≤ e2) :
    ({ e1 with ordinal := v } : Entry K P) <
      (if some (e1.key, e1.primitive) = some (e2.key, e2.primitive)
        then ({ e2 with ordinal := v + 1 } : Entry K P)
        else { e2 with ordinal := 0 }) := by
  by_cases hp : (e1.key, e1.primitive) = (e2.key, e2.primitive)
  · rw [if_pos (by rw [hp])]
    have hk : e1.key = e2.key := congrArg Prod.fst hp
    have hpr : e1.primitive = e2.primitive := congrArg Prod.snd hp
    exact Entry.lt_iff.mpr (Or.inr ⟨hk, Or.inr ⟨hpr, Nat.lt_succ_self v⟩⟩)
  · rw [if_neg (fun hq => hp (Option.some.inj hq))]
    rcases Entry.le_iff.mp hle with hlt | ⟨hk, hlt | ⟨hpr, _⟩⟩
    · exact Entry.lt_iff.mpr (Or.inl hlt)
    · exact Entry.lt_iff.mpr (Or.inr ⟨hk, Or.inl hlt⟩)
    · exact absurd (Prod.ext hk hpr) hp

theorem assignGo_chain (l : List (Entry K P)) :
    ∀ c o, l.Chain' (· ≤ ·) → (assignGo c o l).Chain' (· < ·) := by
  induction l with
  | nil =>
    intro c o _
    simp [assignGo]
  | cons e1 rest ih =>
    intro c o h
    cases rest with
    | nil =>
      rw [assignGo_cons]
      simp [assignGo]
    | cons e2 rest2 =>
      rw [List.chain'_cons] at h
      have htail := ih (some (e1.key, e1.primitive))
        (if c = some (e1.key, e1.primitive) then o + 1 else 0) h.2
      rw [assignGo_cons] at htail ⊢
      rw [assignGo_cons]
      rw [List.chain'_cons]
      refine ⟨?_, htail⟩
      by_cases hc0 : c = some (e1.key, e1.primitive)
      · simp only [if_pos hc0]
        exact entry_step_lt e1 e2 (o + 1) h.1
      · simp only [if_neg hc0]
        exact entry_step_lt e1 e2 0 h.1

theorem stageEntries_sorted (k : K) (ps : List P) :
    (stageEntries k ps).Sorted (· < ·) := by
  have h1 : (List.insertionSort (· ≤ ·) (ps.map fun p => Entry.mk k p 0)).Sorted (· ≤ ·) :=
    List.sorted_insertionSort _ _
  have h2 : (List.insertionSort (· ≤ ·) (ps.map fun p => Entry.mk k p 0)).Chain' (· ≤ ·) :=
    List.chain'_iff_pairwise.mpr h1
  exact List.chain'_iff_pairwise.mp (assignGo_chain _ none 0 h2)

theorem assignGo_key_prim (c : Option (K × P)) (o : Nat) (l : List (Entry K P)) :
    (assignGo c o l).map (fun e => (e.key, e.primitive))
      = l.map (fun e => (e.key, e.primitive)) := by
  induction l generalizing c o with
  | nil => rfl
  | cons e rest ih =>
    rw [assignGo_cons]
    by_cases hc : c = some (e.key, e.primitive)
    · simp only [if_pos hc, List.map_cons, ih]
    · simp only [if_neg hc, List.map_cons, ih]

theorem stageEntries_key {k : K} {ps : List P} {e : Entry K P}
    (h : e ∈ stageEntries k ps) : e.key = k := by
  unfold stageEntries assignOrdinals at h
  have h1 : (e.key, e.primitive) ∈
      (assignGo none 0 (List.insertionSort (· ≤ ·) (ps.map fun p => Entry.mk k p 0))).map
        (fun e => (e.key, e.primitive)) :=
    List.mem_map_of_mem _ h
  rw [assignGo_key_prim] at h1
  obtain ⟨e', he', hpe⟩ := List.mem_map.mp h1
  have he'' : e' ∈ ps.map fun p => Entry.mk k p 0 :=
    (List.perm_insertionSort _ _).mem_iff.mp he'
  obtain ⟨p, _, rfl⟩ := List.mem_map.mp he''
  exact (congrArg Prod.fst hpe).symm

theorem stageEntries_perm_eq {k : K} {ps qs : List P} (h : ps.Perm qs) :
    stageEntries k ps = stageEntries k qs := by
  unfold stageEntries
  congr 1
  have hperm : (List.insertionSort (· ≤ ·) (ps.map fun p => Entry.mk k p 0)).Perm
      (List.insertionSort (· ≤ ·) (qs.map fun p => Entry.mk k p 0)) :=
    (List.perm_insertionSort _ _).trans
      ((h.map _).trans (List.perm_insertionSort _ _).symm)
  exact @List.eq_of_perm_of_sorted _ (· ≤ ·) _ _ _ hperm
    (List.sorted_insertionSort _ _) (List.sorted_insertionSort _ _)

theorem stageEntries_primitives_perm (k : K) (ps : List P) :
    ((stageEntries k ps).map (fun e => e.primitive)).Perm ps := by
  have h1 := assignGo_key_prim none 0
    (List.insertionSort (· ≤ ·) (ps.map fun p => Entry.mk k p 0))
  have h2 := congrArg (List.map Prod.snd) h1
  rw [List.map_map, List.map_map] at h2
  have h3 : ((stageEntries k ps).map fun e => e.primitive)
      = ((List.insertionSort (· ≤ ·) (ps.map fun p => Entry.mk k p 0)).map
          fun e => e.primitive) := by
    unfold stageEntries assignOrdinals
    exact h2
  rw [h3]
  refine ((List.perm_insertionSort _ _).map _).trans ?_
  rw [List.map_map]
  have h4 : (ps.map ((fun e => e.primitive) ∘ fun p => Entry.mk k p 0)) = ps := by
    rw [show ((fun (e : Entry K P) => e.primitive) ∘ fun p => Entry.mk k p 0)
      = (id : P → P) from rfl]
    exact List.map_id ps
  rw [h4]

/-- The `MeshDiffer`-valued insert fold of `stage` only touches the overlay
entry set. -/
theorem foldl_insert_state (l : List (Entry K P)) (t : MeshDiffer K P) :
    l.foldl (fun t e => { t with alter_entries := setInsert e t.alter_entries }) t
      = { t with alter_entries := l.foldl (fun acc e => setInsert e acc) t.alter_entries } := by
  induction l generalizing t with
  | nil => rfl
  | cons e l ih => simp only [List.foldl_cons, ih]

theorem mem_foldl_setInsert {α : Type} [LinearOrder α] (l acc : List α) (x : α) :
    x ∈ l.foldl (fun acc a => setInsert a acc) acc ↔ (x ∈ l ∨ x ∈ acc) := by
  induction l generalizing acc with
  | nil => simp
  | cons a l ih =>
    simp only [List.foldl_cons, ih, mem_setInsert, List.mem_cons]
    tauto

theorem sorted_foldl_setInsert {α : Type} [LinearOrder α] (l acc : List α)
    (h : acc.Sorted (· < ·)) :
    (l.foldl (fun acc a => setInsert a acc) acc).Sorted (· < ·) := by
  induction l generalizing acc with
  | nil => exact h
  | cons a l ih => exact ih _ (sorted_setInsert a acc h)

/-- Explicit form of `stage`. -/
theorem stage_eq (s : MeshDiffer K P) (k : K) (ps : List P) :
    s.stage k ps = { s with
      alter_entries := (stageEntries k ps).foldl (fun acc e => setInsert e acc)
        (if k ∈ s.alter_keys
          then s.alter_entries.filter (fun e => decide (e.key ≠ k))
          else s.alter_entries),
      alter_keys := if k ∈ s.alter_keys then s.alter_keys else setInsert k s.alter_keys } := by
  unfold MeshDiffer.stage
  by_cases hk : k ∈ s.alter_keys
  · simp only [if_pos hk, foldl_insert_state]
  · simp only [if_neg hk, foldl_insert_state]

theorem stage_tree (s : MeshDiffer K P) (k : K) (ps : List P) :
    (s.stage k ps).tree = s.tree := by
  rw [stage_eq]

theorem stage_array (s : MeshDiffer K P) (k : K) (ps : List P) :
    (s.stage k ps).array = s.array := by
  rw [stage_eq]

theorem stage_keys_mem (s : MeshDiffer K P) (k : K) (ps : List P) (k' : K) :
    k' ∈ (s.stage k ps).alter_keys ↔ (k' = k ∨ k' ∈ s.alter_keys) := by
  rw [stage_eq]
  dsimp only
  by_cases hk : k ∈ s.alter_keys
  · rw [if_pos hk]
    constructor
    · exact Or.inr
    · rintro (rfl | h)
      · exact hk
      · exact h
  · rw [if_neg hk]
    exact mem_setInsert k k' s.alter_keys

theorem stage_alter_mem {s : MeshDiffer K P} (hv : Valid s) (k : K) (ps : List P)
    (e : Entry K P) :
    e ∈ (s.stage k ps).alter_entries ↔
      (e ∈ stageEntries k ps ∨ (e ∈ s.alter_entries ∧ e.key ≠ k)) := by
  rw [stage_eq]
  dsimp only
  rw [mem_foldl_setInsert]
  by_cases hk : k ∈ s.alter_keys
  · rw [if_pos hk, List.mem_filter]
    simp
  · rw [if_neg hk]
    constructor
    · rintro (h | h)
      · exact Or.inl h
      · refine Or.inr ⟨h, fun hke => hk ?_⟩
        exact hke ▸ hv.2.2.2.2 e h
    · rintro (h | ⟨h, _⟩)
      · exact Or.inl h
      · exact Or.inr h

theorem stage_valid {s : MeshDiffer K P} (hv : Valid s) (k : K) (ps : List P) :
    Valid (s.stage k ps) := by
  obtain ⟨hst, hinv, hsae, hsak, hkeys⟩ := hv
  refine ⟨?_, ?_, ?_, ?_, ?_⟩
  · rw [stage_tree]
    exact hst
  · rw [stage_tree, stage_array]
    exact hinv
  · rw [stage_eq]
    dsimp only
    apply sorted_foldl_setInsert
    by_cases hk : k ∈ s.alter_keys
    · rw [if_pos hk]
      exact List.Pairwise.filter _ hsae
    · rw [if_neg hk]
      exact hsae
  · rw [stage_eq]
    dsimp only
    by_cases hk : k ∈ s.alter_keys
    · rw [if_pos hk]
      exact hsak
    · rw [if_neg hk]
      exact sorted_setInsert k _ hsak
  · intro e he
    rw [stage_alter_mem ⟨hst, hinv, hsae, hsak, hkeys⟩ k ps e] at he
    rw [stage_keys_mem]
    rcases he with h | ⟨h, _⟩
    · exact Or.inl (stageEntries_key h)
    · exact Or.inr (hkeys e h)

/-- After re-staging key `k`, the overlay's `k`-range is exactly the freshly
built canonical entry list. -/
theorem stage_range_self {s : MeshDiffer K P} (hv : Valid s) (k : K) (ps : List P) :
    rangeSet k (s.stage k ps).alter_entries = stageEntries k ps := by
  apply sorted_ext
  · exact rangeSet_sorted (stage_valid hv k ps).2.2.1
  · exact stageEntries_sorted k ps
  · intro e
    rw [mem_rangeSet, stage_alter_mem hv k ps e]
    constructor
    · rintro ⟨h | ⟨_, hne⟩, hkey⟩
      · exact h
      · exact absurd hkey hne
    · intro h
      exact ⟨Or.inl h, stageEntries_key h⟩

/-- Re-staging key `k` leaves every other key's overlay range unchanged. -/
theorem stage_range_other {s : MeshDiffer K P} (hv : Valid s) (k : K) (ps : List P)
    {k' : K} (hne : k' ≠ k) :
    rangeSet k' (s.stage k ps).alter_entries = rangeSet k' s.alter_entries := by
  apply sorted_ext
  · exact rangeSet_sorted (stage_valid hv k ps).2.2.1
  · exact rangeSet_sorted hv.2.2.1
  · intro e
    rw [mem_rangeSet, mem_rangeSet, stage_alter_mem hv k ps e]
    constructor
    · rintro ⟨h | ⟨h, _⟩, hkey⟩
      · exact absurd (hkey.symm.trans (stageEntries_key h)) hne
      · exact ⟨h, hkey⟩
    · rintro ⟨h, hkey⟩
      exact ⟨Or.inr ⟨h, fun hk2 => hne (hkey.symm.trans hk2)⟩, hkey⟩

end StageLemmas

section Preservation

variable {K P : Type} [LinearOrder K] [LinearOrder P]

theorem commit_alter_entries (s : MeshDiffer K P) :
    s.commit.2.alter_entries = s.alter_entries := by
  rw [commit_eq]

theorem commit_alter_keys (s : MeshDiffer K P) :
    s.commit.2.alter_keys = s.alter_keys := by
  rw [commit_eq]

theorem commit_tree (s : MeshDiffer K P) :
    s.commit.2.tree = (commitStateAfter s).tree := by
  rw [commit_eq]

theorem commit_array (s : MeshDiffer K P) :
    s.commit.2.array = (commitStateAfter s).array := by
  rw [commit_eq]

theorem commit_valid {s : MeshDiffer K P} (hv : Valid s) : Valid s.commit.2 := by
  obtain ⟨h1, h2, _, _⟩ := commitStateAfter_spec hv
  refine ⟨?_, ?_, ?_, ?_, ?_⟩
  · rw [commit_tree]
    exact h1
  · rw [commit_tree, commit_array]
    exact h2
  · rw [commit_alter_entries]
    exact hv.2.2.1
  · rw [commit_alter_keys]
    exact hv.2.2.2.1
  · intro e he
    rw [commit_alter_entries] at he
    rw [commit_alter_keys]
    exact hv.2.2.2.2 e he

/-- After `commit`, every touched key's baseline range agrees exactly with
its overlay range: the committed state has converged to the overlay. -/
theorem commit_converges {s : MeshDiffer K P} (hv : Valid s) :
    ∀ k ∈ s.alter_keys,
      rangeTree k s.commit.2.tree = rangeSet k s.commit.2.alter_entries := by
  intro k hk
  rw [commit_tree, commit_alter_entries]
  obtain ⟨h1, _, _, hchar⟩ := commitStateAfter_spec hv
  apply sorted_ext (rangeTree_sorted h1) (rangeSet_sorted hv.2.2.1)
  intro e
  rw [mem_rangeTree, mem_rangeSet]
  by_cases hkey : e.key = k
  · have hAk : e ∈ (collectDiff s).1 ↔ e ∈ (keyDiff s k).1 := by
      rw [mem_collect_added]
      constructor
      · rintro ⟨k', _, he⟩
        have hkk : k' = k := (keyDiff_added_key he).symm.trans hkey
        exact hkk ▸ he
      · intro he
        exact ⟨k, hk, he⟩
    have hRk : e ∈ (collectDiff s).2 ↔ e ∈ (keyDiff s k).2 := by
      rw [mem_collect_removed]
      constructor
      · rintro ⟨k', _, he⟩
        have hkk : k' = k := (keyDiff_removed_key he).symm.trans hkey
        exact hkk ▸ he
      · intro he
        exact ⟨k, hk, he⟩
    have hmw := mergeWalk_mem (rangeTree k s.tree) (rangeSet k s.alter_entries)
      (rangeTree_sorted hv.1) (rangeSet_sorted hv.2.2.1) e
    constructor
    · rintro ⟨hL, _⟩
      have hx : (e ∈ rangeTree k s.tree ∧ e ∉ (keyDiff s k).2) ∨ e ∈ (keyDiff s k).1 := by
        rw [hchar e] at hL
        rcases hL with ⟨hm, hnr⟩ | ha
        · exact Or.inl ⟨mem_rangeTree.mpr ⟨hm, hkey⟩, fun hr => hnr (hRk.mpr hr)⟩
        · exact Or.inr (hAk.mp ha)
      have hres := hmw.mp hx
      exact ⟨(mem_rangeSet.mp hres).1, hkey⟩
    · rintro ⟨hmem, _⟩
      have hx := hmw.mpr (mem_rangeSet.mpr ⟨hmem, hkey⟩)
      refine ⟨?_, hkey⟩
      rw [hchar e]
      rcases hx with ⟨hb, hnr⟩ | ha
      · exact Or.inl ⟨(mem_rangeTree.mp hb).1, fun hr => hnr (hRk.mp hr)⟩
      · exact Or.inr (hAk.mpr ha)
  · constructor
    · rintro ⟨_, hk2⟩
      exact absurd hk2 hkey
    · rintro ⟨_, hk2⟩
      exact absurd hk2 hkey

theorem valid_new : Valid (meshNew : MeshDiffer K P) :=
  ⟨List.Pairwise.nil, ⟨rfl, fun e i => by simp [meshNew]⟩, List.Pairwise.nil,
   List.Pairwise.nil, fun e he => absurd he (List.not_mem_nil e)⟩

theorem valid_step {s : MeshDiffer K P} (hv : Valid s) (op : MeshOp K P) :
    Valid (s.step op) := by
  cases op with
  | stage k ps => exact stage_valid hv k ps
  | commit => exact commit_valid hv

theorem valid_runOps (ops : List (MeshOp K P)) {s : MeshDiffer K P} (hv : Valid s) :
    Valid (runOps s ops) := by
  induction ops generalizing s with
  | nil => exact hv
  | cons op ops ih => exact ih (valid_step hv op)

end Preservation

section WriteCount

variable {K P : Type} [LinearOrder K] [LinearOrder P]

theorem zipFold_writes_length (prs : List (Entry K P × Entry K P)) (st : CommitState K P) :
    (prs.foldl zipStep st).writes.length = st.writes.length + prs.length := by
  induction prs generalizing st with
  | nil => simp
  | cons p rest ih =>
    rw [List.foldl_cons, ih]
    simp only [zipStep, List.length_append, List.length_cons, List.length_nil]
    omega

theorem appendFold_writes_length (es : List (Entry K P)) (st : CommitState K P) :
    (es.foldl appendStep st).writes.length = st.writes.length + es.length := by
  induction es generalizing st with
  | nil => simp
  | cons e rest ih =>
    rw [List.foldl_cons, ih]
    simp only [appendStep, List.length_append, List.length_cons, List.length_nil]
    omega

theorem removeStep_writes_le (st : CommitState K P) (e : Entry K P) :
    (removeStep st e).writes.length ≤ st.writes.length + 1 := by
  unfold removeStep
  dsimp only
  split
  · dsimp only
    omega
  · split
    · dsimp only
      omega
    · simp

theorem removeFold_writes_le (es : List (Entry K P)) (st : CommitState K P) :
    (es.foldl removeStep st).writes.length ≤ st.writes.length + es.length := by
  induction es generalizing st with
  | nil => simp
  | cons e rest ih =>
    rw [List.foldl_cons]
    have h1 := ih (removeStep st e)
    have h2 := removeStep_writes_le st e
    simp only [List.length_cons]
    omega

theorem commit_writes_le (s : MeshDiffer K P) :
    s.commit.1.writes_data.length ≤ (collectDiff s).1.length + (collectDiff s).2.length := by
  rw [commit_eq]
  dsimp only
  rw [List.length_map]
  rw [sortWrites, (List.perm_insertionSort (writeLE (P := P)) (commitStateAfter s).writes).length_eq]
  unfold commitStateAfter
  have h1 := zipFold_writes_length
    (((collectDiff s).1).zip ((collectDiff s).2)) ⟨s.tree, s.array, []⟩
  have hz1 : (((collectDiff s).1).zip ((collectDiff s).2)).length ≤ (collectDiff s).1.length := by
    rw [List.length_zip]
    exact inf_le_left
  have hz2 : (((collectDiff s).1).zip ((collectDiff s).2)).length ≤ (collectDiff s).2.length := by
    rw [List.length_zip]
    exact inf_le_right
  by_cases hc : (collectDiff s).2.length < (collectDiff s).1.length
  · rw [if_pos hc]
    have h2 := appendFold_writes_length ((collectDiff s).1.drop (collectDiff s).2.length)
      ((((collectDiff s).1).zip ((collectDiff s).2)).foldl zipStep ⟨s.tree, s.array, []⟩)
    rw [h2, h1, List.length_drop]
    simp only [List.length_nil]
    omega
  · rw [if_neg hc]
    have h2 := removeFold_writes_le ((collectDiff s).2.drop (collectDiff s).1.length)
      ((((collectDiff s).1).zip ((collectDiff s).2)).foldl zipStep ⟨s.tree, s.array, []⟩)
    rw [h1, List.length_drop] at h2
    simp only [List.length_nil] at h2
    omega

end WriteCount

section ClaimC2C4

/-- Claim C4: for every commit, the number of writes in the returned patch is
at most `|added| + |removed|`, where `added` and `removed` are the entries
only in the overlay respectively only in the baseline, summed across all
touched keys for that commit (the two components of `collectDiff`). -/
theorem c4_commit_write_bound {K P : Type} [LinearOrder K] [LinearOrder P]
    (s : MeshDiffer K P) :
    s.commit.1.writes_data.length ≤
      (collectDiff s).1.length + (collectDiff s).2.length :=
  commit_writes_le s

/-- Claim C2: for every state reachable by any sequence of `stage` and
`commit` calls from `new()`, the entry-to-index map and the dense array are
exact inverses: `tree.len() == array.len()`, and looking up `array[i]` in the
tree yields `i` for every `i < array.len()`.  In particular, after any commit
the dense array has no gaps: its length equals the number of live entries. -/
theorem c2_tree_array_inverse {K P : Type} [LinearOrder K] [LinearOrder P]
    (ops : List (MeshOp K P)) :
    (runOps meshNew ops).tree.length = (runOps meshNew ops).array.length ∧
    (∀ i e, (runOps meshNew ops).array[i]? = some e →
      lookupT (runOps meshNew ops).tree e = some i) := by
  have hv := valid_runOps ops (valid_new (K := K) (P := P))
  refine ⟨hv.2.1.1, ?_⟩
  intro i e hie
  have hm : (e, i) ∈ (runOps meshNew ops).tree := (hv.2.1.2 e i).mpr hie
  exact (lookupT_eq_some hv.1.nodupFst).mpr hm

end ClaimC2C4

section ClaimC3

variable {K P : Type} [LinearOrder K] [LinearOrder P]

/-- A converged state (every touched key's baseline range equals its overlay
range) has an empty diff. -/
theorem collectDiff_of_converged {s : MeshDiffer K P}
    (h : ∀ k ∈ s.alter_keys, rangeTree k s.tree = rangeSet k s.alter_entries) :
    collectDiff s = ([], []) := by
  rw [collectDiff_eq]
  simp only [Prod.mk.injEq]
  constructor
  · rw [List.join_eq_nil_iff]
    intro l hl
    obtain ⟨k, hk, rfl⟩ := List.mem_map.mp hl
    unfold keyDiff
    rw [h k hk, mergeWalk_self]
  · rw [List.join_eq_nil_iff]
    intro l hl
    obtain ⟨k, hk, rfl⟩ := List.mem_map.mp hl
    unfold keyDiff
    rw [h k hk, mergeWalk_self]

/-- A state with an empty diff commits to an empty patch of unchanged
length, leaving its tree and array untouched. -/
theorem commit_of_empty_diff {s : MeshDiffer K P} (h : collectDiff s = ([], [])) :
    s.commit.1.writes_data = [] ∧ s.commit.1.writes_indices = [] ∧
    s.commit.1.new_len = s.array.length := by
  have hafter : commitStateAfter s = ⟨s.tree, s.array, []⟩ := by
    unfold commitStateAfter
    rw [h]
    simp
  rw [commit_eq, hafter, h]
  simp [sortWrites]

/-- Claim C3: if a commit has already applied a key's staged content (the
key was staged with `qs` and committed), then staging that same key again
with the same primitive multiset `ps` (twice in a row) and committing yields
a patch with zero writes and a `new_len` equal to the current committed
length. -/
theorem c3_idempotent_restage {K P : Type} [LinearOrder K] [LinearOrder P]
    (ops : List (MeshOp K P)) (k : K) (qs ps : List P) (hperm : qs.Perm ps) :
    ((((runOps meshNew ops).stage k qs).commit.2.stage k ps).stage k ps).commit.1.writes_data
      = [] ∧
    ((((runOps meshNew ops).stage k qs).commit.2.stage k ps).stage k ps).commit.1.writes_indices
      = [] ∧
    ((((runOps meshNew ops).stage k qs).commit.2.stage k ps).stage k ps).commit.1.new_len
      = ((runOps meshNew ops).stage k qs).commit.2.array.length := by
  have hv0 := valid_runOps ops (valid_new (K := K) (P := P))
  have hvA := stage_valid hv0 k qs
  have hv1 := commit_valid hvA
  have hconv := commit_converges hvA
  have hk1 : k ∈ ((runOps meshNew ops).stage k qs).commit.2.alter_keys := by
    rw [commit_alter_keys]
    exact (stage_keys_mem _ k qs k).mpr (Or.inl rfl)
  have hSE : rangeSet k ((runOps meshNew ops).stage k qs).commit.2.alter_entries
      = stageEntries k qs := by
    rw [commit_alter_entries]
    exact stage_range_self hv0 k qs
  have hstage_id : ((runOps meshNew ops).stage k qs).commit.2.stage k ps
      = ((runOps meshNew ops).stage k qs).commit.2 := by
    rw [stage_eq, if_pos hk1, if_pos hk1]
    have halter : (stageEntries k ps).foldl (fun acc e => setInsert e acc)
        (((runOps meshNew ops).stage k qs).commit.2.alter_entries.filter
          fun e => decide (e.key ≠ k))
        = ((runOps meshNew ops).stage k qs).commit.2.alter_entries := by
      apply sorted_ext
      · exact sorted_foldl_setInsert _ _ (List.Pairwise.filter _ hv1.2.2.1)
      · exact hv1.2.2.1
      · intro e
        rw [mem_foldl_setInsert, List.mem_filter]
        rw [stageEntries_perm_eq hperm.symm]
        have he1 : e ∈ stageEntries k qs ↔
            (e ∈ ((runOps meshNew ops).stage k qs).commit.2.alter_entries ∧ e.key = k) := by
          rw [← hSE, mem_rangeSet]
        rw [he1]
        simp only [decide_eq_true_eq]
        constructor
        · rintro (⟨h1, _⟩ | ⟨h1, _⟩)
          · exact h1
          · exact h1
        · intro h1
          by_cases hkey : e.key = k
          · exact Or.inl ⟨h1, hkey⟩
          · exact Or.inr ⟨h1, hkey⟩
    rw [halter]
  have hempty : collectDiff ((((runOps meshNew ops).stage k qs).commit.2.stage k ps).stage k ps)
      = ([], []) := by
    rw [hstage_id, hstage_id]
    exact collectDiff_of_converged hconv
  have hres := commit_of_empty_diff hempty
  refine ⟨hres.1, hres.2.1, ?_⟩
  rw [hres.2.2, hstage_id, hstage_id]

/-- Witness for C3 at a concrete input. -/
theorem c3_idempotent_restage_witness :
    (([5, 6] : List ℕ).Perm [6, 5]) ∧
    (((((runOps (K := ℕ) (P := ℕ) meshNew []).stage 1 [5, 6]).commit.2.stage 1
        [6, 5]).stage 1 [6, 5]).commit.1.writes_data = [] ∧
     ((((runOps (K := ℕ) (P := ℕ) meshNew []).stage 1 [5, 6]).commit.2.stage 1
        [6, 5]).stage 1 [6, 5]).commit.1.writes_indices = [] ∧
     ((((runOps (K := ℕ) (P := ℕ) meshNew []).stage 1 [5, 6]).commit.2.stage 1
        [6, 5]).stage 1 [6, 5]).commit.1.new_len
       = ((runOps (K := ℕ) (P := ℕ) meshNew []).stage 1 [5, 6]).commit.2.array.length) :=
  ⟨by decide, c3_idempotent_restage [] 1 [5, 6] [6, 5] (by decide)⟩

end ClaimC3

section ContiguousTheory

/-- Destination indices covered by a contiguous run, in order. -/
def runDsts (c : Contiguous) : List Nat :=
  (List.range c.len).map (fun t => c.dst_start + t)

/-- Source offsets covered by a contiguous run, in order. -/
def runSrcs (c : Contiguous) : List Nat :=
  (List.range c.len).map (fun t => c.src_start + t)

theorem getElem?_eq_some_getD {l : List Nat} {n : Nat} (h : n < l.length) :
    l[n]? = some (l.getD n 0) := by
  rw [List.getD_eq_getElem?_getD, List.getElem?_eq_getElem h]
  rfl

/-- Loop invariant facts for `partLen`: all probed offsets inside the
computed span satisfy the contiguity condition, and the condition fails
right after the span. -/
theorem partLen_spec (idx : List Nat) (curr : Nat) :
    ∀ k, (∀ t, k ≤ t → t < partLen idx curr k →
        (curr + t < idx.length ∧ idx.getD (curr + t) 0 = idx.getD curr 0 + t)) ∧
      ¬(curr + partLen idx curr k < idx.length ∧
        idx.getD (curr + partLen idx curr k) 0 = idx.getD curr 0 + partLen idx curr k) := by
  have H : ∀ m k, idx.length - (curr + k) = m →
      (∀ t, k ≤ t → t < partLen idx curr k →
        (curr + t < idx.length ∧ idx.getD (curr + t) 0 = idx.getD curr 0 + t)) ∧
      ¬(curr + partLen idx curr k < idx.length ∧
        idx.getD (curr + partLen idx curr k) 0 = idx.getD curr 0 + partLen idx curr k) := by
    intro m
    induction m using Nat.strong_induction_on with
    | _ m ih =>
      intro k hk
      by_cases hc : curr + k < idx.length ∧ idx.getD (curr + k) 0 = idx.getD curr 0 + k
      · have hstep : partLen idx curr k = partLen idx curr (k + 1) := by
          rw [partLen, if_pos hc]
        obtain ⟨ih1, ih2⟩ := ih (idx.length - (curr + (k + 1))) (by omega) (k + 1) rfl
        rw [hstep]
        refine ⟨?_, ih2⟩
        intro t ht hlt
        rcases Nat.eq_or_lt_of_le ht with rfl | ht2
        · exact hc
        · exact ih1 t ht2 hlt
      · have hstop : partLen idx curr k = k := by
          rw [partLen, if_neg hc]
        rw [hstop]
        exact ⟨fun t ht hlt => absurd (lt_of_le_of_lt ht hlt) (lt_irrefl k), hc⟩
  exact fun k => H (idx.length - (curr + k)) k rfl

theorem iterContiguousGo_nil {idx : List Nat} {curr : Nat}
    (h : ¬ curr < idx.length) : iterContiguousGo idx curr = [] := by
  rw [iterContiguousGo, dif_neg h]

theorem iterContiguousGo_cons {idx : List Nat} {curr : Nat}
    (h : curr < idx.length) :
    iterContiguousGo idx curr =
      ⟨curr, idx.getD curr 0, partLen idx curr 0⟩
        :: iterContiguousGo idx (curr + partLen idx curr 0) := by
  rw [iterContiguousGo, dif_pos h]

/-- Full characterization of the run decomposition computed by
`iter_contiguous`: the runs expand (in order) to exactly the index list on
the destination side and to `0, 1, 2, …` on the source side, every run is
non-empty, the first run starts at the current cursor, and adjacent runs are
source-contiguous but destination-discontiguous (so no run can be extended). -/
theorem iterContiguousGo_spec (idx : List Nat) :
    ∀ fuel curr, idx.length - curr = fuel →
    ((iterContiguousGo idx curr).flatMap runDsts = idx.drop curr) ∧
    ((iterContiguousGo idx curr).flatMap runSrcs = List.range' curr (idx.length - curr)) ∧
    (∀ c ∈ iterContiguousGo idx curr, 0 < c.len) ∧
    (∀ c, (iterContiguousGo idx curr).head? = some c →
      c.src_start = curr ∧ c.dst_start = idx.getD curr 0) ∧
    List.Chain' (fun c1 c2 => c2.src_start = c1.src_start + c1.len ∧
      c2.dst_start ≠ c1.dst_start + c1.len) (iterContiguousGo idx curr) := by
  intro fuel
  induction fuel using Nat.strong_induction_on with
  | _ fuel ih =>
    intro curr hfuel
    by_cases hcl : curr < idx.length
    · have hpl1 : 1 ≤ partLen idx curr 0 := partLen_pos idx curr hcl
      obtain ⟨hrun, hstop⟩ := partLen_spec idx curr 0
      have hple : curr + partLen idx curr 0 ≤ idx.length := by
        rcases Nat.eq_or_lt_of_le hpl1 with heq | hgt
        · have := hcl
          omega
        · have := (hrun (partLen idx curr 0 - 1) (by omega) (by omega)).1
          omega
      obtain ⟨ihd, ihs, ihp, ihh, ihc⟩ :=
        ih (idx.length - (curr + partLen idx curr 0)) (by omega)
          (curr + partLen idx curr 0) rfl
      rw [iterContiguousGo_cons hcl]
      have hrdst : runDsts ⟨curr, idx.getD curr 0, partLen idx curr 0⟩
          = (idx.drop curr).take (partLen idx curr 0) := by
        apply List.ext_getElem?
        intro t
        rw [runDsts]
        dsimp only
        rw [List.getElem?_map, List.getElem?_take, List.getElem?_drop]
        by_cases htl : t < partLen idx curr 0
        · rw [if_pos htl, List.getElem?_range htl]
          obtain ⟨hb, hv⟩ := hrun t (Nat.zero_le t) htl
          rw [getElem?_eq_some_getD hb, hv]
          rfl
        · rw [if_neg htl]
          rw [List.getElem?_eq_none (by rw [List.length_range]; omega)]
          rfl
      have hrsrc : runSrcs ⟨curr, idx.getD curr 0, partLen idx curr 0⟩
          = List.range' curr (partLen idx curr 0) := by
        rw [runSrcs, List.range'_eq_map_range]
      refine ⟨?_, ?_, ?_, ?_, ?_⟩
      · rw [List.flatMap_cons, ihd, hrdst]
        rw [← List.drop_drop]
        exact List.take_append_drop _ _
      · rw [List.flatMap_cons, ihs, hrsrc]
        have harith : idx.length - curr = (idx.length - (curr + partLen idx curr 0))
            + partLen idx curr 0 := by omega
        rw [harith]
        have := List.range'_append curr (partLen idx curr 0)
          (idx.length - (curr + partLen idx curr 0)) 1
        simpa using this
      · intro c hc
        rcases List.mem_cons.mp hc with rfl | hc
        · exact hpl1
        · exact ihp c hc
      · intro c hc
        rw [List.head?_cons] at hc
        cases Option.some.inj hc
        exact ⟨rfl, rfl⟩
      · rw [List.chain'_cons']
        refine ⟨?_, ihc⟩
        intro y hy
        obtain ⟨hy1, hy2⟩ := ihh y hy
        refine ⟨by rw [hy1], ?_⟩
        rw [hy2]
        intro hcontra
        have hnn : iterContiguousGo idx (curr + partLen idx curr 0) ≠ [] := by
          intro hnil
          rw [hnil] at hy
          cases hy
        have hlt : curr + partLen idx curr 0 < idx.length := by
          by_contra hge
          exact hnn (iterContiguousGo_nil hge)
        exact hstop ⟨hlt, hcontra⟩
    · rw [iterContiguousGo_nil hcl]
      have hdrop : idx.drop curr = [] := List.drop_eq_nil_iff.mpr (by omega)
      have hlen0 : idx.length - curr = 0 := by omega
      refine ⟨by simp [hdrop], by simp [hlen0], by simp, by simp, by simp⟩

end ContiguousTheory

section ClaimC7C9

theorem commit_writes_indices_sorted {K P : Type} [LinearOrder K] [LinearOrder P]
    (s : MeshDiffer K P) : s.commit.1.writes_indices.Sorted (· ≤ ·) := by
  rw [commit_eq]
  dsimp only
  rw [sortWrites]
  have hs := List.sorted_insertionSort (writeLE (P := P)) (commitStateAfter s).writes
  exact List.Pairwise.map Prod.snd (fun a b h => h) hs

/-- Claim C7: for every patch returned by `commit`, `writes_indices` is
sorted ascending, and `iter_contiguous` yields a partition of the write list
into maximal contiguous runs: expanding the runs in order reproduces exactly
the destination index list (destinations increase by exactly 1 inside a run)
and the source offsets `0, 1, 2, …` (matching source offsets), every run is
non-empty, every write belongs to exactly one yielded run, no run can be
extended at either end (adjacent runs are source-contiguous but break the
destination pattern, the first run starts at write 0, the last ends at the
last write), and `apply_patch` issues exactly one copy-range request per run
and none when the write list is empty. -/
theorem c7_patch_runs {K P : Type} [LinearOrder K] [LinearOrder P] (s : MeshDiffer K P) :
    s.commit.1.writes_indices.Sorted (· ≤ ·) ∧
    (s.commit.1.iterContiguous.flatMap runDsts = s.commit.1.writes_indices) ∧
    (s.commit.1.iterContiguous.flatMap runSrcs
      = List.range s.commit.1.writes_indices.length) ∧
    (∀ c ∈ s.commit.1.iterContiguous, 0 < c.len) ∧
    List.Chain' (fun c1 c2 => c2.src_start = c1.src_start + c1.len ∧
      c2.dst_start ≠ c1.dst_start + c1.len) s.commit.1.iterContiguous ∧
    s.commit.1.writes_data.length = s.commit.1.writes_indices.length ∧
    applyPatchCopies s.commit.1
      = if s.commit.1.writes_data.isEmpty then [] else s.commit.1.iterContiguous := by
  obtain ⟨h1, h2, h3, _, h5⟩ :=
    iterContiguousGo_spec s.commit.1.writes_indices s.commit.1.writes_indices.length 0
      (Nat.sub_zero _)
  rw [List.drop_zero] at h1
  rw [Nat.sub_zero, ← List.range_eq_range'] at h2
  have hlen : s.commit.1.writes_data.length = s.commit.1.writes_indices.length := by
    rw [commit_eq]
    dsimp only
    rw [List.length_map, List.length_map]
  exact ⟨commit_writes_indices_sorted s, h1, h2, h3, h5, hlen, rfl⟩

/-- Claim C9 counterexample: the destination indices of a single patch are
not always pairwise distinct.  Stage keys 1..4 with one primitive each and
commit (slots 0..3 in key order); then stage keys 2 and 4 empty and commit.
Removing key 2 relocates key 4's entry (slot 3) into freed slot 1 and records
a write at 1; removing key 4's entry — now at slot 1 — relocates key 3's
entry into slot 1 and records a second write at index 1, so `writes_indices`
is `[1, 1]`. -/
theorem c9_counterexample :
    ¬ (((((((meshNew : MeshDiffer ℕ ℕ).stage 1 [10]).stage 2 [20]).stage 3
          [30]).stage 4 [40]).commit.2.stage 2 []).stage 4
            []).commit.1.writes_indices.Pairwise (· ≠ ·) := by
  have heval : (((((((meshNew : MeshDiffer ℕ ℕ).stage 1 [10]).stage 2 [20]).stage 3
          [30]).stage 4 [40]).commit.2.stage 2 []).stage 4 []).commit.1 =
      ⟨2, [40, 30], [1, 1]⟩ := by
    simp [MeshDiffer.stage, MeshDiffer.commit, meshNew, stageEntries, assignOrdinals,
      assignGo, setInsert, collectDiff, mergeWalk, rangeTree, rangeSet, treeInsert,
      treeRemove, lookupT, sortWrites, zipStep, appendStep, removeStep,
      List.insertionSort, List.orderedInsert, Entry.lt_iff, Entry.le_iff, writeLE]
  rw [heval]
  decide

/-- Claim C9 (amended): for every patch returned by `commit`, the destination
indices in `writes_indices` are sorted in nondecreasing order, but they are
not necessarily pairwise distinct: when a swap-relocated entry is itself
removed later in the same commit, its freed slot is written again, so a dense
slot can be written more than once within a single patch. -/
theorem c9_amended_sorted_indices {K P : Type} [LinearOrder K] [LinearOrder P]
    (s : MeshDiffer K P) : s.commit.1.writes_indices.Sorted (· ≤ ·) :=
  commit_writes_indices_sorted s

end ClaimC7C9

section ClaimC2Witness

/-- Witness for C2 at a concrete input. -/
theorem c2_tree_array_inverse_witness :
    (runOps (meshNew : MeshDiffer ℕ ℕ) [MeshOp.stage 1 [5], MeshOp.commit]).array[0]?
        = some ⟨1, 5, 0⟩ ∧
    lookupT (runOps (meshNew : MeshDiffer ℕ ℕ)
        [MeshOp.stage 1 [5], MeshOp.commit]).tree ⟨1, 5, 0⟩ = some 0 := by
  have harr : (runOps (meshNew : MeshDiffer ℕ ℕ)
      [MeshOp.stage 1 [5], MeshOp.commit]).array[0]? = some ⟨1, 5, 0⟩ := by
    simp [runOps, MeshDiffer.step, MeshDiffer.stage, MeshDiffer.commit, meshNew,
      stageEntries, assignOrdinals, assignGo, setInsert, collectDiff, mergeWalk,
      rangeTree, rangeSet, treeInsert, treeRemove, lookupT, sortWrites, zipStep,
      appendStep, removeStep, List.insertionSort, List.orderedInsert,
      Entry.lt_iff, Entry.le_iff, writeLE]
  exact ⟨harr,
    (c2_tree_array_inverse [MeshOp.stage 1 [5], MeshOp.commit]).2 0 ⟨1, 5, 0⟩ harr⟩

end ClaimC2Witness

section BufferVecLemmas

theorem growCap_of_not {c n : Nat} (h : ¬(0 < c ∧ c < n)) : growCap c n = c := by
  rw [growCap, if_neg h]

/-- The grow loop computes the least repeated doubling of the capacity that
reaches the requested length (and leaves the capacity alone when it is
already large enough). -/
theorem growCap_spec (c n : Nat) (hc : 0 < c) :
    n ≤ growCap c n ∧ (∃ k, growCap c n = c * 2 ^ k) ∧
    (c < n → growCap c n < 2 * n) := by
  have H : ∀ m c, 0 < c → n - c = m →
      n ≤ growCap c n ∧ (∃ k, growCap c n = c * 2 ^ k) ∧
      (c < n → growCap c n < 2 * n) := by
    intro m
    induction m using Nat.strong_induction_on with
    | _ m ih =>
      intro c hc hm
      by_cases hlt : c < n
      · have hstep : growCap c n = growCap (2 * c) n := by
          rw [growCap, if_pos ⟨hc, hlt⟩]
        obtain ⟨ih1, ⟨k, ih2⟩, ih3⟩ := ih (n - 2 * c) (by omega) (2 * c) (by omega) rfl
        rw [hstep]
        refine ⟨ih1, ⟨k + 1, by rw [ih2]; ring⟩, fun _ => ?_⟩
        by_cases h2 : 2 * c < n
        · exact ih3 h2
        · rw [growCap_of_not (by omega)]
          omega
      · rw [growCap_of_not (by omega)]
        exact ⟨by omega, ⟨0, by ring⟩, fun h => absurd h hlt⟩
  exact H (n - c) c hc rfl

theorem shrinkCap_eq_max (c : Nat) :
    shrinkCap c = max (c / 4) BUFFER_VEC_DEFAULT_CAPACITY := by
  unfold shrinkCap BUFFER_VEC_DEFAULT_CAPACITY
  dsimp only
  rw [Nat.max_def]
  split <;> split <;> omega

end BufferVecLemmas

section ClaimC8C10

/-- Claim C8 (amended): `set_len(new_len)` grows capacity by repeated
doubling until `capacity >= new_len` (reaching the least such doubling, in
particular staying below `2 * new_len`); it shrinks only when
`capacity > new_len * 4`, and then divides the capacity by 4 exactly once,
clamped below by the default minimum capacity of 512 elements (it does NOT
iterate down to `max(new_len rounded up by the doubling rule, 512)`); any
capacity change reallocates to the new capacity, issues a single copy
covering the live prefix `[0, old_len)` (recorded in `reallocs`), and checks
the `assert!(len <= new_capacity)` of `realloc`; and the stored length
becomes `new_len`. -/
theorem c8_amended_set_len (st : BufferVecSt) (n : Nat) (hc : 0 < st.capacity) :
    (st.capacity < n →
      n ≤ (setLenModel st n).capacity ∧ (setLenModel st n).capacity < 2 * n ∧
      ∃ k, (setLenModel st n).capacity = st.capacity * 2 ^ k) ∧
    (n ≤ st.capacity → st.capacity ≤ n * 4 →
      (setLenModel st n).capacity = st.capacity) ∧
    (n * 4 < st.capacity →
      (setLenModel st n).capacity = max (st.capacity / 4) BUFFER_VEC_DEFAULT_CAPACITY) ∧
    (setLenModel st n).len = n ∧
    ((setLenModel st n).capacity = st.capacity →
      (setLenModel st n).reallocs = st.reallocs) ∧
    ((setLenModel st n).capacity ≠ st.capacity →
      (setLenModel st n).reallocs = st.reallocs ++ [((setLenModel st n).capacity, st.len)] ∧
      (setLenModel st n).asserts_ok
        = (st.asserts_ok && decide (st.len ≤ (setLenModel st n).capacity))) := by
  by_cases hg : st.capacity < n
  · obtain ⟨h1, ⟨k, h2⟩, h3⟩ := growCap_spec st.capacity n hc
    have hne : growCap st.capacity n ≠ st.capacity := by
      intro heq
      rw [heq] at h1
      omega
    have hset : setLenModel st n =
        { len := n, capacity := growCap st.capacity n,
          asserts_ok := st.asserts_ok && decide (st.len ≤ growCap st.capacity n),
          reallocs := st.reallocs ++ [(growCap st.capacity n, st.len)] } := by
      unfold setLenModel
      rw [if_pos hg, if_pos hne]
    rw [hset]
    dsimp only
    exact ⟨fun _ => ⟨h1, h3 hg, ⟨k, h2⟩⟩, fun hle => absurd hg (by omega),
      fun hs => absurd hg (by omega), rfl, fun heq => absurd heq hne,
      fun _ => ⟨rfl, rfl⟩⟩
  · by_cases hs : n * 4 < st.capacity
    · by_cases hne : shrinkCap st.capacity ≠ st.capacity
      · have hset : setLenModel st n =
            { len := n, capacity := shrinkCap st.capacity,
              asserts_ok := st.asserts_ok && decide (st.len ≤ shrinkCap st.capacity),
              reallocs := st.reallocs ++ [(shrinkCap st.capacity, st.len)] } := by
          unfold setLenModel
          rw [if_neg hg, if_pos hs, if_pos hne]
        rw [hset]
        dsimp only
        exact ⟨fun hgg => absurd hgg hg, fun _ hle => absurd hs (by omega),
          fun _ => shrinkCap_eq_max st.capacity, rfl, fun heq => absurd heq hne,
          fun _ => ⟨rfl, rfl⟩⟩
      · rw [not_not] at hne
        have hset : setLenModel st n = { st with len := n } := by
          unfold setLenModel
          rw [if_neg hg, if_pos hs, if_neg (by rw [hne]; exact fun h => h rfl)]
        rw [hset]
        dsimp only
        exact ⟨fun hgg => absurd hgg hg, fun _ hle => absurd hs (by omega),
          fun _ => by rw [← shrinkCap_eq_max, hne], rfl, fun _ => rfl,
          fun hnee => absurd rfl hnee⟩
    · have hset : setLenModel st n = { st with len := n } := by
        unfold setLenModel
        rw [if_neg hg, if_neg hs, if_neg (fun h => h rfl)]
      rw [hset]
      dsimp only
      exact ⟨fun hgg => absurd hgg hg, fun _ _ => rfl, fun hss => absurd hss hs,
        rfl, fun _ => rfl, fun hnee => absurd rfl hnee⟩

/-- Witness for C8 (amended) at a concrete input (a growth step). -/
theorem c8_amended_set_len_witness :
    0 < bufferVecNew.capacity ∧
    ((bufferVecNew.capacity < 600 →
      600 ≤ (setLenModel bufferVecNew 600).capacity ∧
      (setLenModel bufferVecNew 600).capacity < 2 * 600 ∧
      ∃ k, (setLenModel bufferVecNew 600).capacity = bufferVecNew.capacity * 2 ^ k) ∧
    (600 ≤ bufferVecNew.capacity → bufferVecNew.capacity ≤ 600 * 4 →
      (setLenModel bufferVecNew 600).capacity = bufferVecNew.capacity) ∧
    (600 * 4 < bufferVecNew.capacity →
      (setLenModel bufferVecNew 600).capacity
        = max (bufferVecNew.capacity / 4) BUFFER_VEC_DEFAULT_CAPACITY) ∧
    (setLenModel bufferVecNew 600).len = 600 ∧
    ((setLenModel bufferVecNew 600).capacity = bufferVecNew.capacity →
      (setLenModel bufferVecNew 600).reallocs = bufferVecNew.reallocs) ∧
    ((setLenModel bufferVecNew 600).capacity ≠ bufferVecNew.capacity →
      (setLenModel bufferVecNew 600).reallocs
        = bufferVecNew.reallocs ++ [((setLenModel bufferVecNew 600).capacity, bufferVecNew.len)] ∧
      (setLenModel bufferVecNew 600).asserts_ok
        = (bufferVecNew.asserts_ok &&
            decide (bufferVecNew.len ≤ (setLenModel bufferVecNew 600).capacity)))) :=
  ⟨by decide, c8_amended_set_len bufferVecNew 600 (by decide)⟩

/-- Claim C8 counterexample: after `set_len(8192)`, `set_len(2048)`,
`set_len(10)` from a fresh buffer (no realloc assertion fires along the
way), the capacity is 2048: the shrink arm divided 8192 by 4 once.  The
spec's claimed shrink target "max(new_len rounded up by the doubling rule,
the 512 minimum)" evaluates to 512 for `new_len = 10`, so the claim as
stated is false. -/
theorem c8_counterexample :
    (runSetLens [8192, 2048, 10]).capacity = 2048 ∧
    specShrinkTarget 10 = 512 ∧
    (runSetLens [8192, 2048, 10]).asserts_ok = true ∧
    (2048 : Nat) ≠ 512 := by
  refine ⟨?_, ?_, ?_, by decide⟩ <;>
    simp [runSetLens, setLenModel, bufferVecNew, growCap, shrinkCap,
      specShrinkTarget, BUFFER_VEC_DEFAULT_CAPACITY]

/-- Claim C10 is violated by the code: running `set_len(2048)` then
`set_len(500)` on a fresh `BufferVec` picks the shrunken capacity 512 while
the element length is still 2048, so `realloc`'s `assert!(self.len <=
new_capacity)` fails (the model's `asserts_ok` goes false; the Rust process
aborts). -/
theorem c10_assert_violation :
    (runSetLens [2048, 500]).asserts_ok = false ∧
    (runSetLens [2048]).len = 2048 ∧
    (runSetLens [2048]).capacity = 2048 ∧
    shrinkCap 2048 = 512 := by
  refine ⟨?_, ?_, ?_, ?_⟩ <;>
    simp [runSetLens, setLenModel, bufferVecNew, growCap, shrinkCap,
      BUFFER_VEC_DEFAULT_CAPACITY]

end ClaimC8C10

section ClaimC1C5

/-- Claim C1 is violated by the code at this input: stage keys 1..4 with one
primitive each and commit (slots 0..3 in key order); then stage keys 3 and 4
empty and commit.  In the second commit, removing key 3's entry (slot 2)
relocates key 4's entry into slot 2 and records a write there; removing key
4's entry — now the last live slot — merely pops, leaving the stale write in
the patch.  The patch therefore has `new_len = 2` together with a write at
destination index 2: applying it by the claim's rule (resize the plain array
to 2, then write at index 2) indexes out of bounds — the repository's own
follower-apply test code (`follower[index] = primitive`) would panic — so
the patch does not apply to a plain dense array as the claim requires. -/
theorem c1_out_of_range_write :
    (((((((meshNew : MeshDiffer ℕ ℕ).stage 1 [10]).stage 2 [20]).stage 3 [30]).stage 4
        [40]).commit.2.stage 3 []).stage 4 []).commit.1 = ⟨2, [40], [2]⟩ ∧
    ((((((((meshNew : MeshDiffer ℕ ℕ).stage 1 [10]).stage 2 [20]).stage 3 [30]).stage 4
        [40]).commit.2.stage 3 []).stage 4 []).commit.1.new_len ≤ 2 ∧
      2 ∈ (((((((meshNew : MeshDiffer ℕ ℕ).stage 1 [10]).stage 2 [20]).stage 3
        [30]).stage 4 [40]).commit.2.stage 3 []).stage 4 []).commit.1.writes_indices) := by
  have h : (((((((meshNew : MeshDiffer ℕ ℕ).stage 1 [10]).stage 2 [20]).stage 3
      [30]).stage 4 [40]).commit.2.stage 3 []).stage 4 []).commit.1
      = ⟨2, [40], [2]⟩ := by
    simp [MeshDiffer.stage, MeshDiffer.commit, meshNew, stageEntries, assignOrdinals,
      assignGo, setInsert, collectDiff, mergeWalk, rangeTree, rangeSet, treeInsert,
      treeRemove, lookupT, sortWrites, zipStep, appendStep, removeStep,
      List.insertionSort, List.orderedInsert, Entry.lt_iff, Entry.le_iff, writeLE]
  rw [h]
  exact ⟨rfl, by decide, by decide⟩

/-- Claim C5: stage key 1 with `[A, B]` = `[10, 20]`, stage key 2 with
`[C] = [30]`, commit: the patch has `new_len = 3` and exactly 3 writes
filling slots 0..3 with `{A, B, C}`; then stage key 1 with `[]` and commit:
the second patch has `new_len = 1` and exactly one write — the swap-removed
survivor `C` written into freed slot 0 — and the surviving dense-array
element is `C`'s entry. -/
theorem c5_two_commit_scenario :
    (((meshNew : MeshDiffer ℕ ℕ).stage 1 [10, 20]).stage 2 [30]).commit.1
      = ⟨3, [10, 20, 30], [0, 1, 2]⟩ ∧
    ((((meshNew : MeshDiffer ℕ ℕ).stage 1 [10, 20]).stage 2 [30]).commit.2.stage 1
      []).commit.1 = ⟨1, [30], [0]⟩ ∧
    ((((meshNew : MeshDiffer ℕ ℕ).stage 1 [10, 20]).stage 2 [30]).commit.2.stage 1
      []).commit.2.array = [⟨2, 30, 0⟩] := by
  refine ⟨?_, ?_, ?_⟩ <;>
    simp [MeshDiffer.stage, MeshDiffer.commit, meshNew, stageEntries, assignOrdinals,
      assignGo, setInsert, collectDiff, mergeWalk, rangeTree, rangeSet, treeInsert,
      treeRemove, lookupT, sortWrites, zipStep, appendStep, removeStep,
      List.insertionSort, List.orderedInsert, Entry.lt_iff, Entry.le_iff, writeLE]

end ClaimC1C5

section ClaimC6

variable {K P : Type} [LinearOrder K] [LinearOrder P]

theorem orderedInsert_replicate {α : Type} [LinearOrder α] (n : Nat) (a : α) :
    List.orderedInsert (· ≤ ·) a (List.replicate n a) = List.replicate (n + 1) a := by
  cases n with
  | zero => rfl
  | succ m =>
    rw [List.replicate_succ, List.orderedInsert, if_pos (le_refl a)]
    rw [List.replicate_succ, List.replicate_succ]

theorem insertionSort_replicate {α : Type} [LinearOrder α] (n : Nat) (a : α) :
    List.insertionSort (· ≤ ·) (List.replicate n a) = List.replicate n a := by
  induction n with
  | zero => rfl
  | succ m ih =>
    rw [List.replicate_succ]
    simp only [List.insertionSort]
    rw [ih, orderedInsert_replicate, List.replicate_succ]

theorem assignGo_replicate (e : Entry K P) : ∀ (n o : Nat),
    assignGo (some (e.key, e.primitive)) o (List.replicate n e)
      = (List.range n).map (fun i => { e with ordinal := o + 1 + i }) := by
  intro n
  induction n with
  | zero => intro o; rfl
  | succ m ih =>
    intro o
    rw [List.replicate_succ, assignGo_cons, if_pos rfl, if_pos rfl, ih (o + 1)]
    rw [List.range_succ_eq_map, List.map_cons, List.map_map]
    congr 1
    apply List.map_congr_left
    intro a _
    simp only [Function.comp_apply, Entry.mk.injEq, true_and]
    omega

/-- `stage`'s canonical entry list for `n` copies of one primitive: ordinals
`0, 1, …, n-1` in order. -/
theorem stageEntries_replicate (k : K) (p : P) (n : Nat) :
    stageEntries k (List.replicate n p)
      = (List.range n).map (fun i => Entry.mk k p i) := by
  unfold stageEntries assignOrdinals
  rw [List.map_replicate, insertionSort_replicate]
  cases n with
  | zero => rfl
  | succ m =>
    rw [List.replicate_succ, assignGo_cons, if_neg (by simp), if_neg (by simp)]
    dsimp only
    have hgo := assignGo_replicate (Entry.mk k p 0) m 0
    dsimp only at hgo
    rw [hgo]
    rw [List.range_succ_eq_map, List.map_cons, List.map_map]
    congr 1
    apply List.map_congr_left
    intro a _
    simp only [Function.comp_apply, Entry.mk.injEq, true_and]
    omega

/-- Claim C6: `stage` assigns ordinals by sorting the input batch and
numbering consecutive equal `(key, primitive)` runs starting at 0 — in
particular, staging any key with `n` copies of one primitive value produces
`n` distinct entries with ordinals `0..n-1`.  Concretely: staging key 5 with
two copies of `X = 7` and committing produces the two distinct entries
`⟨5,7,0⟩` and `⟨5,7,1⟩` occupying dense slots 0 and 1 (both carrying 7);
staging key 5 with a single `[7]` afterwards (deleting one copy) and
committing removes exactly one of them — the dense array still holds
`⟨5,7,0⟩`, so deleting one does not delete both. -/
theorem c6_duplicate_ordinals :
    (∀ (k p n : ℕ), stageEntries k (List.replicate n p)
        = (List.range n).map (fun i => Entry.mk k p i)) ∧
    ((meshNew : MeshDiffer ℕ ℕ).stage 5 [7, 7]).commit.2.array
      = [⟨5, 7, 0⟩, ⟨5, 7, 1⟩] ∧
    ((meshNew : MeshDiffer ℕ ℕ).stage 5 [7, 7]).commit.1 = ⟨2, [7, 7], [0, 1]⟩ ∧
    (((meshNew : MeshDiffer ℕ ℕ).stage 5 [7, 7]).commit.2.stage 5 [7]).commit.1
      = ⟨1, [], []⟩ ∧
    (((meshNew : MeshDiffer ℕ ℕ).stage 5 [7, 7]).commit.2.stage 5 [7]).commit.2.array
      = [⟨5, 7, 0⟩] := by
  refine ⟨fun k p n => stageEntries_replicate k p n, ?_, ?_, ?_, ?_⟩ <;>
    simp [MeshDiffer.stage, MeshDiffer.commit, meshNew, stageEntries, assignOrdinals,
      assignGo, setInsert, collectDiff, mergeWalk, rangeTree, rangeSet, treeInsert,
      treeRemove, lookupT, sortWrites, zipStep, appendStep, removeStep,
      List.insertionSort, List.orderedInsert, Entry.lt_iff, Entry.le_iff, writeLE]

end ClaimC6
